import Mathlib

/-!
Verification of the knowledge-graph integrator (unir.py).

The development shallowly embeds the integration core of the program:

* values parsed from JSON files are modelled by the inductive type JVal
  (null, booleans, integers, floats, strings, arrays, objects); the extra
  constructor pyobj stands for a Python object that the json module cannot
  serialize, so that the fallback branch of sanitize_scalar is exercised.
  Finite floats are carried by their repr string, which is also what both
  str() and json.dumps() print for them.
* Python truthiness, hashability, str()/repr() and compact json.dumps with
  ensure_ascii disabled are modelled explicitly; a raised exception is
  modelled with Except Unit (for expressions) or with a Bool success flag
  paired with the part-mutated state (for statements), matching the
  fact that Python keeps mutations performed before a raise.
* the builder state (nodes, edges, edge_seen, prop_counts) is embedded as
  a structure of lists used with dict/set/Counter semantics.

Known modelling simplifications, none of which is load bearing for the
theorems below: the regex digit class is modelled as the ASCII digits,
repr() of strings does not escape exotic control characters, Python
cross-type numeric equality (1 == True == 1.0) is not identified, and
sorted() on lists of two or more elements is modelled as raising unless
the elements are all strings or all ints/bools (Python additionally
orders floats; every property proved here only sorts strings).
-/

/-- A value as produced by json.load, plus pyobj for a non-serializable
Python object (carrying its str()/repr() text). -/
inductive JVal where
  | null
  | bool (b : Bool)
  | int (i : Int)
  | float (r : String)
  | str (s : String)
  | arr (xs : List JVal)
  | obj (kvs : List (String × JVal))
  | pyobj (s : String)

mutual

def JVal.beq : JVal → JVal → Bool
  | .null, .null => true
  | .bool a, .bool b => a == b
  | .int a, .int b => a == b
  | .float a, .float b => a == b
  | .str a, .str b => a == b
  | .arr a, .arr b => JVal.beqList a b
  | .obj a, .obj b => JVal.beqKvs a b
  | .pyobj a, .pyobj b => a == b
  | _, _ => false

def JVal.beqList : List JVal → List JVal → Bool
  | [], [] => true
  | a :: as, b :: bs => JVal.beq a b && JVal.beqList as bs
  | _, _ => false

def JVal.beqKvs : List (String × JVal) → List (String × JVal) → Bool
  | [], [] => true
  | (k, a) :: as, (l, b) :: bs => k == l && JVal.beq a b && JVal.beqKvs as bs
  | _, _ => false

end

mutual

theorem JVal.eq_of_beq : ∀ {a b : JVal}, JVal.beq a b = true → a = b
  | .null, .null, _ => rfl
  | .bool a, .bool b, h => by simp [JVal.beq] at h; simp [h]
  | .int a, .int b, h => by simp [JVal.beq] at h; simp [h]
  | .float a, .float b, h => by simp [JVal.beq] at h; simp [h]
  | .str a, .str b, h => by simp [JVal.beq] at h; simp [h]
  | .arr a, .arr b, h => by
      simp only [JVal.beq] at h
      exact congrArg JVal.arr (JVal.eqList_of_beq h)
  | .obj a, .obj b, h => by
      simp only [JVal.beq] at h
      exact congrArg JVal.obj (JVal.eqKvs_of_beq h)
  | .pyobj a, .pyobj b, h => by simp [JVal.beq] at h; simp [h]

theorem JVal.eqList_of_beq : ∀ {a b : List JVal}, JVal.beqList a b = true → a = b
  | [], [], _ => rfl
  | a :: as, b :: bs, h => by
      simp only [JVal.beqList, Bool.and_eq_true] at h
      have h1 := JVal.eq_of_beq h.1
      have h2 := JVal.eqList_of_beq h.2
      rw [h1, h2]

theorem JVal.eqKvs_of_beq : ∀ {a b : List (String × JVal)}, JVal.beqKvs a b = true → a = b
  | [], [], _ => rfl
  | (k, a) :: as, (l, b) :: bs, h => by
      simp only [JVal.beqKvs, Bool.and_eq_true] at h
      have h1 := JVal.eq_of_beq h.1.2
      have h2 := JVal.eqKvs_of_beq h.2
      have h3 : k = l := by simpa using h.1.1
      rw [h1, h2, h3]

end

mutual

theorem JVal.beq_refl : ∀ a : JVal, JVal.beq a a = true
  | .null => rfl
  | .bool a => by simp [JVal.beq]
  | .int a => by simp [JVal.beq]
  | .float a => by simp [JVal.beq]
  | .str a => by simp [JVal.beq]
  | .arr a => by simp only [JVal.beq]; exact JVal.beqList_refl a
  | .obj a => by simp only [JVal.beq]; exact JVal.beqKvs_refl a
  | .pyobj a => by simp [JVal.beq]

theorem JVal.beqList_refl : ∀ a : List JVal, JVal.beqList a a = true
  | [] => rfl
  | a :: as => by
      simp only [JVal.beqList, Bool.and_eq_true]
      exact ⟨JVal.beq_refl a, JVal.beqList_refl as⟩

theorem JVal.beqKvs_refl : ∀ a : List (String × JVal), JVal.beqKvs a a = true
  | [] => rfl
  | (k, a) :: as => by
      simp only [JVal.beqKvs, Bool.and_eq_true]
      exact ⟨⟨by simp, JVal.beq_refl a⟩, JVal.beqKvs_refl as⟩

end

instance : DecidableEq JVal := fun a b =>
  decidable_of_iff (JVal.beq a b = true)
    ⟨fun h => JVal.eq_of_beq h, fun h => h ▸ JVal.beq_refl a⟩

/-- Python truthiness (bool(v)) of a JVal.  A float is falsy exactly when
it is zero, i.e. when its repr is 0.0 or -0.0. -/
def pyTruthy : JVal → Bool
  | .null => false
  | .bool b => b
  | .int i => decide (i ≠ 0)
  | .float r => decide (r ≠ "0.0" ∧ r ≠ "-0.0")
  | .str s => decide (s ≠ "")
  | .arr xs => decide (xs ≠ [])
  | .obj kvs => decide (kvs ≠ [])
  | .pyobj _ => true

/-- Python hashability: lists and dicts are unhashable, everything else
occurring here is hashable. -/
def pyHashable : JVal → Bool
  | .arr _ => false
  | .obj _ => false
  | _ => true

def JVal.isStr : JVal → Bool
  | .str _ => true
  | _ => false

/-- Python repr() of a string: quoted with a single quote, or with a
double quote when the text contains a single quote but no double quote;
backslash, the quote character and newline/tab/carriage return are
escaped.  (Other control characters are left as they are.) -/
def reprEsc (q : Char) (c : Char) : String :=
  if c = Char.ofNat 92 then "\\\\"
  else if c = q then "\\" ++ String.singleton q
  else if c = Char.ofNat 10 then "\\n"
  else if c = Char.ofNat 13 then "\\r"
  else if c = Char.ofNat 9 then "\\t"
  else String.singleton c

def strReprPy (s : String) : String :=
  let q :=
    if s.data.contains (Char.ofNat 39) && !(s.data.contains (Char.ofNat 34)) then Char.ofNat 34
    else Char.ofNat 39
  String.singleton q ++ String.join (s.data.map (reprEsc q)) ++ String.singleton q

mutual

/-- Python repr() of a JVal. -/
def pyRepr : JVal → String
  | .null => "None"
  | .bool b => if b then "True" else "False"
  | .int i => toString i
  | .float r => r
  | .str s => strReprPy s
  | .arr xs => "[" ++ pyReprList xs ++ "]"
  | .obj kvs => "\x7b" ++ pyReprKvs kvs ++ "\x7d"
  | .pyobj s => s

def pyReprList : List JVal → String
  | [] => ""
  | [x] => pyRepr x
  | x :: xs => pyRepr x ++ ", " ++ pyReprList xs

def pyReprKvs : List (String × JVal) → String
  | [] => ""
  | [(k, v)] => strReprPy k ++ ": " ++ pyRepr v
  | (k, v) :: kvs => strReprPy k ++ ": " ++ pyRepr v ++ ", " ++ pyReprKvs kvs

end

/-- Python str() of a JVal: a string prints as itself, anything else as
its repr. -/
def pyStr : JVal → String
  | .str s => s
  | v => pyRepr v

def hexDigit (n : Nat) : Char :=
  if n < 10 then Char.ofNat (48 + n) else Char.ofNat (87 + n)

def hex4 (n : Nat) : String :=
  String.mk [hexDigit (n / 4096 % 16), hexDigit (n / 256 % 16), hexDigit (n / 16 % 16), hexDigit (n % 16)]

/-- String escaping performed by json.dumps with ensure_ascii=False:
only the double quote, the backslash and control characters are escaped;
non-ASCII characters pass through unchanged. -/
def jsonEscChar (c : Char) : String :=
  if c = Char.ofNat 34 then "\\\""
  else if c = Char.ofNat 92 then "\\\\"
  else if c = Char.ofNat 10 then "\\n"
  else if c = Char.ofNat 9 then "\\t"
  else if c = Char.ofNat 13 then "\\r"
  else if c = Char.ofNat 8 then "\\b"
  else if c = Char.ofNat 12 then "\\f"
  else if c.toNat < 32 then "\\u" ++ hex4 c.toNat
  else String.singleton c

def jsonStrLit (s : String) : String :=
  "\"" ++ String.join (s.data.map jsonEscChar) ++ "\""

mutual

/-- json.dumps(v, ensure_ascii=False, separators=(",", ":")): compact
JSON text; none models the TypeError raised on a non-serializable
object. -/
def jsonDumps : JVal → Option String
  | .null => some "null"
  | .bool b => some (if b then "true" else "false")
  | .int i => some (toString i)
  | .float r => some r
  | .str s => some (jsonStrLit s)
  | .arr xs =>
      match jsonDumpsList xs with
      | some t => some ("[" ++ t ++ "]")
      | none => none
  | .obj kvs =>
      match jsonDumpsKvs kvs with
      | some t => some ("\x7b" ++ t ++ "\x7d")
      | none => none
  | .pyobj _ => none

def jsonDumpsList : List JVal → Option String
  | [] => some ""
  | [x] => jsonDumps x
  | x :: xs =>
      match jsonDumps x, jsonDumpsList xs with
      | some a, some b => some (a ++ "," ++ b)
      | _, _ => none

def jsonDumpsKvs : List (String × JVal) → Option String
  | [] => some ""
  | [(k, v)] =>
      match jsonDumps v with
      | some b => some (jsonStrLit k ++ ":" ++ b)
      | none => none
  | (k, v) :: kvs =>
      match jsonDumps v, jsonDumpsKvs kvs with
      | some b, some c => some (jsonStrLit k ++ ":" ++ b ++ "," ++ c)
      | _, _ => none

end

/-- unir.py get_value: None gives the empty string, a dict gives its
raw "value" entry (defaulting to the empty string), anything else is
passed through str(). -/
def get_value : JVal → JVal
  | .null => .str ""
  | .obj kvs => (List.lookup "value" kvs).getD (.str "")
  | v => .str (pyStr v)

/-- Model of re.search with the pattern /entity/(Q\d+)$ (and its P
variant): because the pattern is anchored at the end, a match exists
exactly when the subject - or, as the dollar also matches just before a
final newline, the subject without a final newline - ends in the literal
text followed by a nonempty digit run, and the captured group is that
trailing token.  Digits are modelled as the ASCII digits. -/
def hasSuffixL (cs suf : List Char) : Bool :=
  decide (suf.length ≤ cs.length) && decide (cs.drop (cs.length - suf.length) = suf)

def reSearchAnchored (lit : List Char) (letter : Char) (s : String) : Option String :=
  let cs := if s.data.getLast? = some (Char.ofNat 10) then s.data.dropLast else s.data
  let ds := (cs.reverse.takeWhile Char.isDigit).reverse
  if ds.isEmpty then none
  else if hasSuffixL (cs.take (cs.length - ds.length)) (lit ++ [letter]) then
    some (String.mk (letter :: ds))
  else none

def qidPat : List Char := "/entity/".data

def pidPat : List Char := "/prop/direct/".data

/-- unir.py extract_qid: re.search needs a string argument, so when
get_value returns a non-string (possible only for a dict cell) the call
raises, modelled by error. -/
def extract_qid (x : JVal) : Except Unit (Option String) :=
  match get_value x with
  | .str s => .ok (reSearchAnchored qidPat (Char.ofNat 81) s)
  | _ => .error ()

/-- unir.py extract_pid, same mechanism with the property pattern. -/
def extract_pid (x : JVal) : Except Unit (Option String) :=
  match get_value x with
  | .str s => .ok (reSearchAnchored pidPat (Char.ofNat 80) s)
  | _ => .error ()

/-- unir.py load_json_any applied to an already parsed document: a dict
whose "results" entry is a dict holding a list under "bindings" gives
that list; a bare list gives itself; anything else gives the one-element
list holding the document - except that a dict whose "results" entry is
present but is not a dict makes the attribute access raise (error). -/
def load_json_any (raw : JVal) : Except Unit (List JVal) :=
  match raw with
  | .obj kvs =>
      match (List.lookup "results" kvs).getD (.obj []) with
      | .obj rkvs =>
          match List.lookup "bindings" rkvs with
          | some (.arr xs) => .ok xs
          | _ => .ok [raw]
      | _ => .error ()
  | .arr xs => .ok xs
  | v => .ok [v]

/-- unir.py sanitize_scalar: None becomes the empty string, primitives
pass through, anything else becomes compact JSON text, or str(v) when
json.dumps raises. -/
def sanitize_scalar (v : JVal) : JVal :=
  match v with
  | .null => .str ""
  | .str _ => v
  | .int _ => v
  | .float _ => v
  | .bool _ => v
  | v =>
      match jsonDumps v with
      | some s => .str s
      | none => .str (pyStr v)

/-! ## The builder (class KGBuilder) -/

/-- An input row: a JSON object, i.e. a mapping from column names to
cells.  row.get(k) returns None for a missing key. -/
abbrev Row := List (String × JVal)

def rowGet (row : Row) (k : String) : JVal :=
  (List.lookup k row).getD .null

/-- Python x or y on two values. -/
def pyOr (a b : JVal) : JVal := if pyTruthy a then a else b

def optStr : Option String → JVal
  | none => .null
  | some s => .str s

/-- The three-column subject/object resolution chain of process_row:
extract_qid(row.get(k1)) or extract_qid(row.get(k2)) or
extract_qid(row.get(k3)), with Python or-short-circuiting (a captured
identifier is a nonempty string, hence truthy). -/
def qidChain (row : Row) (k1 k2 k3 : String) : Except Unit (Option String) := do
  match ← extract_qid (rowGet row k1) with
  | some q => pure (some q)
  | none =>
    match ← extract_qid (rowGet row k2) with
    | some q => pure (some q)
    | none => extract_qid (rowGet row k3)

/-- The two-column property resolution chain of process_row. -/
def pidChain (row : Row) (k1 k2 : String) : Except Unit (Option String) := do
  match ← extract_pid (rowGet row k1) with
  | some q => pure (some q)
  | none => extract_pid (rowGet row k2)

/-- The three-column label chain of process_row:
get_value(row.get(k1)) or get_value(row.get(k2)) or
get_value(row.get(k3)). -/
def labelChain (row : Row) (k1 k2 k3 : String) : JVal :=
  pyOr (get_value (rowGet row k1))
    (pyOr (get_value (rowGet row k2)) (get_value (rowGet row k3)))

/-- A node record: an entity id and its set of observed labels (a Python
set, kept here as a duplicate-free list). -/
structure Node where
  id : String
  labels : List JVal
  deriving DecidableEq

/-- An edge record as appended by add_edge. -/
structure Edge where
  source : String
  target : String
  property_id : Option String
  property_label : JVal
  deriving DecidableEq

/-- The dedup key of add_edge: (src, dst, pid or "", prop_label or ""). -/
abbrev EdgeKey := String × String × String × JVal

/-- The builder state: nodes is the qid-keyed dict, edges the list of
edge records, edge_seen the set of seen dedup keys and prop_counts the
Counter over (pid or "", prop_label or ""). -/
structure KGBuilder where
  nodes : List (String × Node)
  edges : List Edge
  edge_seen : List EdgeKey
  prop_counts : List ((String × JVal) × Nat)
  deriving DecidableEq

def KGBuilder.init : KGBuilder := ⟨[], [], [], []⟩

/-- Adding a label to the set of every entry stored under qid. -/
def addLabelTo (nodes : List (String × Node)) (qid : String) (label : JVal) :
    List (String × Node) :=
  nodes.map fun p =>
    if p.1 = qid then
      (p.1, ⟨p.2.id, if label ∈ p.2.labels then p.2.labels else p.2.labels ++ [label]⟩)
    else p

/-- unir.py KGBuilder.ensure_node.  The node is created when absent; a
truthy label is added to its label set.  The Bool is the no-exception
flag: adding an unhashable (truthy) label raises after the node has been
created, which the caller propagates. -/
def KGBuilder.ensure_node (b : KGBuilder) (qid : String) (label : JVal) :
    KGBuilder × Bool :=
  let nodes1 :=
    if qid ∈ b.nodes.map Prod.fst then b.nodes else b.nodes ++ [(qid, ⟨qid, []⟩)]
  if pyTruthy label then
    if pyHashable label then ({ b with nodes := addLabelTo nodes1 qid label }, true)
    else ({ b with nodes := nodes1 }, false)
  else ({ b with nodes := nodes1 }, true)

/-- Bumping a Counter entry. -/
def bumpCount (counts : List ((String × JVal) × Nat)) (k : String × JVal) :
    List ((String × JVal) × Nat) :=
  if k ∈ counts.map Prod.fst then
    counts.map fun p => if p.1 = k then (p.1, p.2 + 1) else p
  else counts ++ [(k, 1)]

/-- unir.py KGBuilder.add_edge.  The membership test on edge_seen hashes
the key first, so a key holding an unhashable (truthy) label raises
before any mutation; a seen key is a no-op; otherwise the key, the edge
record and the Counter bump are all recorded. -/
def KGBuilder.add_edge (b : KGBuilder) (src dst : String) (pid : Option String)
    (prop_label : JVal) : KGBuilder × Bool :=
  let key : EdgeKey := (src, dst, (pid.getD ""), pyOr prop_label (.str ""))
  if pyHashable (pyOr prop_label (.str "")) then
    if key ∈ b.edge_seen then (b, true)
    else
      ({ b with
          edge_seen := b.edge_seen ++ [key],
          edges := b.edges ++ [⟨src, dst, pid, prop_label⟩],
          prop_counts := bumpCount b.prop_counts ((pid.getD ""), pyOr prop_label (.str "")) },
        true)
  else (b, false)

/-- The subj_label assignment of process_row. -/
def subj_label_of (row : Row) : JVal :=
  labelChain row "itemLabel" "item1Label" "subjectLabel"

/-- The prop_label assignment of process_row:
get_value(row.get("propLabel")) or get_value(row.get("pl_")) or pid. -/
def prop_label_of (row : Row) (pid : Option String) : JVal :=
  pyOr (get_value (rowGet row "propLabel"))
    (pyOr (get_value (rowGet row "pl_")) (optStr pid))

/-- The obj_label assignment of process_row. -/
def obj_label_of (row : Row) : JVal :=
  labelChain row "valueLabel" "item2Label" "ol_"

/-- unir.py KGBuilder.process_row.  The Bool is the no-exception flag;
the returned state keeps every mutation performed before a raise, as in
Python.  Order of operations follows the source: subject resolution,
subject label, the not-subj early return, ensure_node on the subject,
property id and label, object resolution and label, and for a resolved
object ensure_node on the object followed by add_edge. -/
def KGBuilder.process_row (b : KGBuilder) (row : Row) : KGBuilder × Bool :=
  match qidChain row "item" "item1" "subject" with
  | .error _ => (b, false)
  | .ok subjOpt =>
    match subjOpt with
    | none => (b, true)
    | some subj =>
      let r1 := b.ensure_node subj (subj_label_of row)
      if r1.2 = false then (r1.1, false) else
      match pidChain row "prop" "p" with
      | .error _ => (r1.1, false)
      | .ok pid =>
        match qidChain row "value" "item2" "o" with
        | .error _ => (r1.1, false)
        | .ok objOpt =>
          match objOpt with
          | none => (r1.1, true)
          | some obj =>
            let r2 := r1.1.ensure_node obj (obj_label_of row)
            if r2.2 = false then (r2.1, false) else
            r2.1.add_edge subj obj pid (prop_label_of row pid)

/-- One iteration of the row loop of build: a row that is not a dict
makes row.get raise before any mutation; the try block catches either
way and keeps the state. -/
def process_row_any (b : KGBuilder) (row : JVal) : KGBuilder × Bool :=
  match row with
  | .obj kvs => b.process_row kvs
  | _ => (b, false)

/-- The row loop of build over one list of rows. -/
def ingest_rows (b : KGBuilder) (rows : List JVal) : KGBuilder :=
  rows.foldl (fun b row => (process_row_any b row).1) b

/-- The file loop of build over parsed documents: a document on which
load_json_any raises is skipped whole. -/
def ingest_files (b : KGBuilder) (docs : List JVal) : KGBuilder :=
  docs.foldl
    (fun b doc =>
      match load_json_any doc with
      | .ok rows => ingest_rows b rows
      | .error _ => b)
    b

/-! ## sorted() and the normalization step of build -/

/-- Code-point lexicographic order on char lists: the order Python uses
to compare strings. -/
def lexLe : List Char → List Char → Bool
  | [], _ => true
  | _ :: _, [] => false
  | a :: as, b :: bs =>
    if a.toNat < b.toNat then true
    else if b.toNat < a.toNat then false
    else lexLe as bs

def strLe (s t : String) : Bool := lexLe s.data t.data

def strRel : String → String → Prop := fun a b => strLe a b = true

instance : DecidableRel strRel := fun a b => instDecidableEqBool (strLe a b) true

def sortStrs (l : List String) : List String := l.insertionSort strRel

def intKey : JVal → Option Int
  | .int i => some i
  | .bool b => some (if b then 1 else 0)
  | _ => none

def intKeyRel : JVal → JVal → Prop := fun a b => (intKey a).getD 0 ≤ (intKey b).getD 0

instance : DecidableRel intKeyRel := fun a b => Int.decLe _ _

def jvalAsStr : JVal → String
  | .str s => s
  | _ => ""

/-- Python sorted() on the label lists occurring here: a list of at most
one element sorts as itself without comparing; all strings sort in
code-point order; all ints/bools sort by numeric key; any other mix
raises (error).  (Python would additionally order floats, which this
model conservatively treats as an error; no property proved below sorts
anything but strings.) -/
def pySorted (l : List JVal) : Except Unit (List JVal) :=
  if l.length ≤ 1 then .ok l
  else if l.all JVal.isStr then .ok ((sortStrs (l.map jvalAsStr)).map .str)
  else if l.all (fun v => (intKey v).isSome) then .ok (l.insertionSort intKeyRel)
  else .error ()

/-- A node after the normalization step of build. -/
structure NormNode where
  id : String
  label : JVal
  labels : List JVal
  deriving DecidableEq

/-- The per-node normalization of build: label is the first element of
the sorted label set when the set is nonempty (else the empty string),
and labels is the sorted label set. -/
def normalize_node (n : Node) : Except Unit NormNode := do
  let s ← pySorted n.labels
  pure ⟨n.id, if n.labels.isEmpty then .str "" else s.headD (.str ""), s⟩

/-- The normalization loop of build over the node dict; an exception
propagates (build has no handler around this loop). -/
def normalize_nodes (nodes : List (String × Node)) :
    Except Unit (List (String × NormNode)) :=
  match nodes with
  | [] => .ok []
  | (q, n) :: rest => do
      let m ← normalize_node n
      let ms ← normalize_nodes rest
      pure ((q, m) :: ms)

deriving instance DecidableEq for Except

/-! ## Helper predicates and abstraction of the builder state -/

/-- The set of entity ids present in the node dict. -/
def nodeKeys (b : KGBuilder) : List String := b.nodes.map Prod.fst

/-- Label l is recorded for entity q in builder b. -/
def labelPairIn (b : KGBuilder) (q : String) (l : JVal) : Prop :=
  ∃ n, (q, n) ∈ b.nodes ∧ l ∈ n.labels

/-- A cell is well formed in the sense of the input contract: null, a
primitive, or a wrapper object whose "value" entry, when present, holds
text.  Equivalently: get_value returns a string on it. -/
def WFCell (v : JVal) : Prop := (get_value v).isStr = true

/-- A well-formed row: every cell is well formed. -/
def WFRow (row : Row) : Prop := ∀ p ∈ row, WFCell p.2

instance : DecidablePred WFCell := fun v => instDecidableEqBool _ _

instance : ∀ row, Decidable (WFRow row) := fun row => List.decidableBAll _ row

theorem map_fst_addLabelTo (nodes : List (String × Node)) (q : String) (l : JVal) :
    (addLabelTo nodes q l).map Prod.fst = nodes.map Prod.fst := by
  unfold addLabelTo
  rw [List.map_map]
  apply List.map_congr_left
  intro p _
  by_cases h : p.1 = q <;> simp [h]

theorem ensure_node_flag (b : KGBuilder) (q : String) (l : JVal) :
    (b.ensure_node q l).2 = !(pyTruthy l && !pyHashable l) := by
  unfold KGBuilder.ensure_node
  by_cases ht : pyTruthy l <;> by_cases hh : pyHashable l <;> simp [ht, hh]

theorem ensure_node_edges (b : KGBuilder) (q : String) (l : JVal) :
    (b.ensure_node q l).1.edges = b.edges := by
  unfold KGBuilder.ensure_node
  by_cases ht : pyTruthy l <;> by_cases hh : pyHashable l <;> simp [ht, hh]

theorem ensure_node_seen (b : KGBuilder) (q : String) (l : JVal) :
    (b.ensure_node q l).1.edge_seen = b.edge_seen := by
  unfold KGBuilder.ensure_node
  by_cases ht : pyTruthy l <;> by_cases hh : pyHashable l <;> simp [ht, hh]

theorem ensure_node_counts (b : KGBuilder) (q : String) (l : JVal) :
    (b.ensure_node q l).1.prop_counts = b.prop_counts := by
  unfold KGBuilder.ensure_node
  by_cases ht : pyTruthy l <;> by_cases hh : pyHashable l <;> simp [ht, hh]

theorem nodes_ensure_node (b : KGBuilder) (q : String) (l : JVal) :
    (b.ensure_node q l).1.nodes =
      if pyTruthy l && pyHashable l then
        addLabelTo (if q ∈ b.nodes.map Prod.fst then b.nodes else b.nodes ++ [(q, ⟨q, []⟩)]) q l
      else (if q ∈ b.nodes.map Prod.fst then b.nodes else b.nodes ++ [(q, ⟨q, []⟩)]) := by
  unfold KGBuilder.ensure_node
  by_cases ht : pyTruthy l <;> by_cases hh : pyHashable l <;> simp [ht, hh]

theorem mem_nodeKeys_ensure (b : KGBuilder) (q : String) (l : JVal) (x : String) :
    x ∈ nodeKeys (b.ensure_node q l).1 ↔ x ∈ nodeKeys b ∨ x = q := by
  unfold nodeKeys
  rw [nodes_ensure_node]
  by_cases hm : q ∈ b.nodes.map Prod.fst
  · by_cases hth : pyTruthy l && pyHashable l <;>
      simp only [hth, if_true, if_false, hm, if_pos, map_fst_addLabelTo] <;>
    constructor <;> intro h
    · exact Or.inl h
    · rcases h with h | h
      · exact h
      · exact h ▸ hm
    · exact Or.inl h
    · rcases h with h | h
      · exact h
      · exact h ▸ hm
  · by_cases hth : pyTruthy l && pyHashable l <;>
      simp only [hth, if_true, if_false, hm, if_neg, map_fst_addLabelTo] <;>
    simp [List.mem_map]

theorem nodePair_cons (p : String × Node) (rest : List (String × Node)) (x : String) (m : JVal) :
    (∃ n, (x, n) ∈ (p :: rest) ∧ m ∈ n.labels) ↔
      ((x = p.1 ∧ m ∈ p.2.labels) ∨ ∃ n, (x, n) ∈ rest ∧ m ∈ n.labels) := by
  constructor
  · rintro ⟨n, hn, hm⟩
    rcases List.mem_cons.mp hn with h | h
    · left
      obtain ⟨h1, h2⟩ := Prod.mk.injEq .. ▸ h
      exact ⟨h1, h2 ▸ hm⟩
    · exact Or.inr ⟨n, h, hm⟩
  · rintro (⟨h1, h2⟩ | ⟨n, hn, hm⟩)
    · exact ⟨p.2, by rw [h1]; simp, h2⟩
    · exact ⟨n, List.mem_cons_of_mem _ hn, hm⟩

theorem labelPair_addLabelTo (nodes : List (String × Node)) (q : String) (l : JVal)
    (x : String) (m : JVal) :
    (∃ n, (x, n) ∈ addLabelTo nodes q l ∧ m ∈ n.labels) ↔
      (∃ n, (x, n) ∈ nodes ∧ m ∈ n.labels) ∨ (x = q ∧ m = l ∧ q ∈ nodes.map Prod.fst) := by
  induction nodes with
  | nil => simp [addLabelTo]
  | cons p rest ih =>
    have hmap : addLabelTo (p :: rest) q l =
        (if p.1 = q then (p.1, ⟨p.2.id, if l ∈ p.2.labels then p.2.labels else p.2.labels ++ [l]⟩) else p) :: addLabelTo rest q l := by
      simp [addLabelTo]
    rw [hmap, nodePair_cons, nodePair_cons, ih, List.map_cons, List.mem_cons]
    by_cases hq : p.1 = q
    · subst hq
      rw [if_pos rfl]
      by_cases hmem : l ∈ p.2.labels
      · rw [if_pos hmem]
        constructor
        · rintro (⟨h1, h2⟩ | h | ⟨h1, h2, hk⟩)
          · exact Or.inl (Or.inl ⟨h1, h2⟩)
          · exact Or.inl (Or.inr h)
          · exact Or.inr ⟨h1, h2, Or.inr hk⟩
        · rintro ((⟨h1, h2⟩ | h) | ⟨h1, h2, _⟩)
          · exact Or.inl ⟨h1, h2⟩
          · exact Or.inr (Or.inl h)
          · exact Or.inl ⟨h1, h2 ▸ hmem⟩
      · rw [if_neg hmem]
        constructor
        · rintro (⟨h1, h2⟩ | h | ⟨h1, h2, hk⟩)
          · rcases List.mem_append.mp h2 with h2 | h2
            · exact Or.inl (Or.inl ⟨h1, h2⟩)
            · exact Or.inr ⟨h1, List.mem_singleton.mp h2, Or.inl rfl⟩
          · exact Or.inl (Or.inr h)
          · exact Or.inr ⟨h1, h2, Or.inr hk⟩
        · rintro ((⟨h1, h2⟩ | h) | ⟨h1, h2, _⟩)
          · exact Or.inl ⟨h1, List.mem_append.mpr (Or.inl h2)⟩
          · exact Or.inr (Or.inl h)
          · exact Or.inl ⟨h1, List.mem_append.mpr (Or.inr (List.mem_singleton.mpr h2))⟩
    · rw [if_neg hq]
      constructor
      · rintro (⟨h1, h2⟩ | h | ⟨h1, h2, hk⟩)
        · exact Or.inl (Or.inl ⟨h1, h2⟩)
        · exact Or.inl (Or.inr h)
        · exact Or.inr ⟨h1, h2, Or.inr hk⟩
      · rintro ((⟨h1, h2⟩ | h) | ⟨h1, h2, h3 | h3⟩)
        · exact Or.inl ⟨h1, h2⟩
        · exact Or.inr (Or.inl h)
        · exact absurd h3.symm hq
        · exact Or.inr (Or.inr ⟨h1, h2, h3⟩)

theorem nodePair_append_empty (nodes : List (String × Node)) (q x : String) (m : JVal) :
    (∃ n, (x, n) ∈ nodes ++ [(q, ⟨q, []⟩)] ∧ m ∈ n.labels) ↔
      ∃ n, (x, n) ∈ nodes ∧ m ∈ n.labels := by
  constructor
  · rintro ⟨n, hn, hm⟩
    rcases List.mem_append.mp hn with h | h
    · exact ⟨n, h, hm⟩
    · simp only [List.mem_singleton] at h
      obtain ⟨h1, h2⟩ := Prod.mk.injEq .. ▸ h
      rw [h2] at hm
      simp at hm
  · rintro ⟨n, hn, hm⟩
    exact ⟨n, List.mem_append.mpr (Or.inl hn), hm⟩

theorem labelPairIn_ensure (b : KGBuilder) (q : String) (l : JVal) (x : String) (m : JVal) :
    labelPairIn (b.ensure_node q l).1 x m ↔
      labelPairIn b x m ∨ (pyTruthy l = true ∧ pyHashable l = true ∧ x = q ∧ m = l) := by
  unfold labelPairIn
  rw [nodes_ensure_node]
  by_cases hth : (pyTruthy l && pyHashable l) = true
  · have ht := (Bool.and_eq_true _ _).mp hth
    rw [if_pos hth, labelPair_addLabelTo]
    by_cases hm : q ∈ b.nodes.map Prod.fst
    · rw [if_pos hm]
      constructor
      · rintro (h | ⟨h1, h2, _⟩)
        · exact Or.inl h
        · exact Or.inr ⟨ht.1, ht.2, h1, h2⟩
      · rintro (h | ⟨_, _, h1, h2⟩)
        · exact Or.inl h
        · exact Or.inr ⟨h1, h2, hm⟩
    · rw [if_neg hm, nodePair_append_empty]
      have hkeys : q ∈ ((b.nodes ++ [(q, (⟨q, []⟩ : Node))]).map Prod.fst) := by simp
      constructor
      · rintro (h | ⟨h1, h2, _⟩)
        · exact Or.inl h
        · exact Or.inr ⟨ht.1, ht.2, h1, h2⟩
      · rintro (h | ⟨_, _, h1, h2⟩)
        · exact Or.inl h
        · exact Or.inr ⟨h1, h2, hkeys⟩
  · have ht : ¬(pyTruthy l = true ∧ pyHashable l = true) := fun hcon =>
      hth ((Bool.and_eq_true _ _).mpr hcon)
    rw [if_neg hth]
    by_cases hm : q ∈ b.nodes.map Prod.fst
    · rw [if_pos hm]
      constructor
      · exact fun h => Or.inl h
      · rintro (h | ⟨h1, h2, _, _⟩)
        · exact h
        · exact absurd ⟨h1, h2⟩ ht
    · rw [if_neg hm, nodePair_append_empty]
      constructor
      · exact fun h => Or.inl h
      · rintro (h | ⟨h1, h2, _, _⟩)
        · exact h
        · exact absurd ⟨h1, h2⟩ ht

/-- ensure_node q l has reached its fixed point in b: q is present and,
when l is a truthy hashable label, every entry for q records it. -/
def Ensured (b : KGBuilder) (q : String) (l : JVal) : Prop :=
  q ∈ nodeKeys b ∧
    ∀ n, (q, n) ∈ b.nodes → pyTruthy l = true → pyHashable l = true → l ∈ n.labels

theorem addLabelTo_self_of_mem {nodes : List (String × Node)} {q : String} {l : JVal}
    (h : ∀ n, (q, n) ∈ nodes → l ∈ n.labels) : addLabelTo nodes q l = nodes := by
  unfold addLabelTo
  conv_rhs => rw [← List.map_id nodes]
  apply List.map_congr_left
  rintro ⟨k, n⟩ hp
  by_cases hk : k = q
  · subst hk
    have := h n hp
    simp [this]
  · simp [hk]

theorem ensure_node_fix {b : KGBuilder} {q : String} {l : JVal} (h : Ensured b q l) :
    (b.ensure_node q l).1 = b := by
  have h1 : q ∈ List.map Prod.fst b.nodes := h.1
  unfold KGBuilder.ensure_node
  by_cases ht : pyTruthy l = true
  · by_cases hh : pyHashable l = true
    · have hal : addLabelTo b.nodes q l = b.nodes :=
        addLabelTo_self_of_mem (fun n hn => h.2 n hn ht hh)
      simp [h1, ht, hh, hal]
    · simp [h1, ht, hh]
  · simp [h1, ht]

theorem mem_addLabelTo_self {nodes : List (String × Node)} {q : String} {l : JVal} {n : Node}
    (h : (q, n) ∈ addLabelTo nodes q l) : l ∈ n.labels := by
  rcases List.mem_map.mp h with ⟨p, _, hfp⟩
  by_cases hk : p.1 = q
  · simp only [addLabelTo, hk, if_pos] at hfp
    obtain ⟨_, h2⟩ := Prod.mk.injEq .. ▸ hfp
    rw [← h2]
    by_cases hmem : l ∈ p.2.labels <;> simp [hmem]
  · simp only [addLabelTo, hk, if_neg, not_false_iff] at hfp
    obtain ⟨h1, _⟩ := Prod.mk.injEq .. ▸ hfp
    exact absurd h1 hk

theorem mem_addLabelTo_inv {nodes : List (String × Node)} {q2 : String} {l2 : JVal}
    {x : String} {n : Node} (h : (x, n) ∈ addLabelTo nodes q2 l2) :
    ∃ m, (x, m) ∈ nodes ∧ m.labels ⊆ n.labels := by
  rcases List.mem_map.mp h with ⟨p, hp, hfp⟩
  by_cases hk : p.1 = q2
  · simp only [addLabelTo, hk, if_pos] at hfp
    obtain ⟨h1, h2⟩ := Prod.mk.injEq .. ▸ hfp
    refine ⟨p.2, by rw [← h1, ← hk]; simpa using hp, ?_⟩
    rw [← h2]
    by_cases hmem : l2 ∈ p.2.labels
    · simp [hmem]
    · simp only [hmem, if_neg, not_false_iff]
      exact fun a ha => List.mem_append.mpr (Or.inl ha)
  · simp only [addLabelTo, hk, if_neg, not_false_iff] at hfp
    exact ⟨n, hfp ▸ hp, fun a ha => ha⟩

theorem ensure_node_est (b : KGBuilder) (q : String) (l : JVal) :
    Ensured (b.ensure_node q l).1 q l := by
  constructor
  · exact (mem_nodeKeys_ensure b q l q).mpr (Or.inr rfl)
  · intro n hn ht hh
    have hth : (pyTruthy l && pyHashable l) = true := (Bool.and_eq_true _ _).mpr ⟨ht, hh⟩
    rw [nodes_ensure_node, if_pos hth] at hn
    exact mem_addLabelTo_self hn

theorem mem_nodes1_inv {nodes : List (String × Node)} {q2 : String} {x : String} {n : Node}
    (h : (x, n) ∈ (if q2 ∈ nodes.map Prod.fst then nodes else nodes ++ [(q2, ⟨q2, []⟩)])) :
    (x, n) ∈ nodes ∨ ((x, n) = (q2, ⟨q2, []⟩) ∧ q2 ∉ nodes.map Prod.fst) := by
  by_cases hm : q2 ∈ nodes.map Prod.fst
  · rw [if_pos hm] at h
    exact Or.inl h
  · rw [if_neg hm] at h
    rcases List.mem_append.mp h with h | h
    · exact Or.inl h
    · exact Or.inr ⟨List.mem_singleton.mp h, hm⟩

theorem ensured_mono_ensure {b : KGBuilder} {q : String} {l : JVal} (q2 : String) (l2 : JVal)
    (h : Ensured b q l) : Ensured (b.ensure_node q2 l2).1 q l := by
  constructor
  · exact (mem_nodeKeys_ensure b q2 l2 q).mpr (Or.inl h.1)
  · intro n hn ht hh
    rw [nodes_ensure_node] at hn
    by_cases hth : (pyTruthy l2 && pyHashable l2) = true
    · rw [if_pos hth] at hn
      rcases mem_addLabelTo_inv hn with ⟨m, hm, hsub⟩
      rcases mem_nodes1_inv hm with hm | ⟨he, habs⟩
      · exact hsub (h.2 m hm ht hh)
      · obtain ⟨h1, _⟩ := Prod.mk.injEq .. ▸ he
        exact absurd (h1 ▸ h.1) habs
    · rw [if_neg hth] at hn
      rcases mem_nodes1_inv hn with hn | ⟨he, habs⟩
      · exact h.2 n hn ht hh
      · obtain ⟨h1, _⟩ := Prod.mk.injEq .. ▸ he
        exact absurd (h1 ▸ h.1) habs

theorem add_edge_nodes (b : KGBuilder) (src dst : String) (pid : Option String)
    (prop_label : JVal) : (b.add_edge src dst pid prop_label).1.nodes = b.nodes := by
  unfold KGBuilder.add_edge
  by_cases hh : pyHashable (pyOr prop_label (.str "")) = true
  · rw [if_pos hh]
    by_cases hk : ((src, dst, (pid.getD ""), pyOr prop_label (.str "")) : EdgeKey) ∈ b.edge_seen
    · rw [if_pos hk]
    · rw [if_neg hk]
  · rw [if_neg hh]

theorem ensured_mono_add {b : KGBuilder} {q : String} {l : JVal} (src dst : String)
    (pid : Option String) (prop_label : JVal) (h : Ensured b q l) :
    Ensured (b.add_edge src dst pid prop_label).1 q l := by
  constructor
  · unfold nodeKeys
    rw [add_edge_nodes]
    exact h.1
  · intro n hn
    rw [add_edge_nodes] at hn
    exact h.2 n hn

theorem add_edge_flag (b : KGBuilder) (src dst : String) (pid : Option String)
    (prop_label : JVal) :
    (b.add_edge src dst pid prop_label).2 = pyHashable (pyOr prop_label (.str "")) := by
  unfold KGBuilder.add_edge
  by_cases hh : pyHashable (pyOr prop_label (.str "")) = true
  · rw [if_pos hh]
    by_cases hk : ((src, dst, (pid.getD ""), pyOr prop_label (.str "")) : EdgeKey) ∈ b.edge_seen
    · rw [if_pos hk, hh]
    · rw [if_neg hk, hh]
  · rw [if_neg hh]
    simp only []
    exact (Bool.not_eq_true _).mp hh ▸ rfl

theorem add_edge_fix {b : KGBuilder} {src dst : String} {pid : Option String}
    {prop_label : JVal}
    (h : ((src, dst, (pid.getD ""), pyOr prop_label (.str "")) : EdgeKey) ∈ b.edge_seen ∨
      pyHashable (pyOr prop_label (.str "")) = false) :
    (b.add_edge src dst pid prop_label).1 = b := by
  unfold KGBuilder.add_edge
  by_cases hh : pyHashable (pyOr prop_label (.str "")) = true
  · rcases h with h | h
    · rw [if_pos hh, if_pos h]
    · rw [hh] at h; exact absurd h (by simp)
  · rw [if_neg hh]

theorem mem_seen_add (b : KGBuilder) (src dst : String) (pid : Option String)
    (prop_label : JVal) (k : EdgeKey) :
    k ∈ (b.add_edge src dst pid prop_label).1.edge_seen ↔
      k ∈ b.edge_seen ∨
        (pyHashable (pyOr prop_label (.str "")) = true ∧
          k = (src, dst, (pid.getD ""), pyOr prop_label (.str ""))) := by
  unfold KGBuilder.add_edge
  by_cases hh : pyHashable (pyOr prop_label (.str "")) = true
  · rw [if_pos hh]
    by_cases hk : ((src, dst, (pid.getD ""), pyOr prop_label (.str "")) : EdgeKey) ∈ b.edge_seen
    · rw [if_pos hk]
      constructor
      · exact fun h => Or.inl h
      · rintro (h | ⟨_, h⟩)
        · exact h
        · exact h ▸ hk
    · rw [if_neg hk]
      simp only [List.mem_append, List.mem_singleton]
      constructor
      · rintro (h | h)
        · exact Or.inl h
        · exact Or.inr ⟨hh, h⟩
      · rintro (h | ⟨_, h⟩)
        · exact Or.inl h
        · exact Or.inr h
  · rw [if_neg hh]
    constructor
    · exact fun h => Or.inl h
    · rintro (h | ⟨h, _⟩)
      · exact h
      · exact absurd h hh

theorem ensure_node_seen_pres (b : KGBuilder) (q : String) (l : JVal) (k : EdgeKey) :
    k ∈ (b.ensure_node q l).1.edge_seen ↔ k ∈ b.edge_seen := by
  rw [ensure_node_seen]

/-- The no-exception flag of ensure_node as a function of the label. -/
def flagOf (l : JVal) : Bool := !(pyTruthy l && !pyHashable l)

theorem process_row_subj_err {b : KGBuilder} {row : Row} {e : Unit}
    (h : qidChain row "item" "item1" "subject" = .error e) :
    b.process_row row = (b, false) := by
  unfold KGBuilder.process_row
  rw [h]

theorem process_row_subj_none {b : KGBuilder} {row : Row}
    (h : qidChain row "item" "item1" "subject" = .ok none) :
    b.process_row row = (b, true) := by
  unfold KGBuilder.process_row
  rw [h]

theorem process_row_badlabel {b : KGBuilder} {row : Row} {subj : String}
    (h : qidChain row "item" "item1" "subject" = .ok (some subj))
    (hf : flagOf (subj_label_of row) = false) :
    b.process_row row = ((b.ensure_node subj (subj_label_of row)).1, false) := by
  unfold KGBuilder.process_row
  rw [h]
  have : (b.ensure_node subj (subj_label_of row)).2 = false := by
    rw [ensure_node_flag]; exact hf
  simp [this]

theorem process_row_pid_err {b : KGBuilder} {row : Row} {subj : String} {e : Unit}
    (h : qidChain row "item" "item1" "subject" = .ok (some subj))
    (hf : flagOf (subj_label_of row) = true)
    (hp : pidChain row "prop" "p" = .error e) :
    b.process_row row = ((b.ensure_node subj (subj_label_of row)).1, false) := by
  unfold KGBuilder.process_row
  rw [h]
  have h2 : (b.ensure_node subj (subj_label_of row)).2 = true := by
    rw [ensure_node_flag]; exact hf
  simp only [h2, Bool.true_eq_false, if_neg, not_false_iff, hp]

theorem process_row_obj_err {b : KGBuilder} {row : Row} {subj : String} {pid : Option String} {e : Unit}
    (h : qidChain row "item" "item1" "subject" = .ok (some subj))
    (hf : flagOf (subj_label_of row) = true)
    (hp : pidChain row "prop" "p" = .ok pid)
    (ho : qidChain row "value" "item2" "o" = .error e) :
    b.process_row row = ((b.ensure_node subj (subj_label_of row)).1, false) := by
  unfold KGBuilder.process_row
  rw [h]
  have h2 : (b.ensure_node subj (subj_label_of row)).2 = true := by
    rw [ensure_node_flag]; exact hf
  simp only [h2, Bool.true_eq_false, if_neg, not_false_iff, hp, ho]

theorem process_row_obj_none {b : KGBuilder} {row : Row} {subj : String} {pid : Option String}
    (h : qidChain row "item" "item1" "subject" = .ok (some subj))
    (hf : flagOf (subj_label_of row) = true)
    (hp : pidChain row "prop" "p" = .ok pid)
    (ho : qidChain row "value" "item2" "o" = .ok none) :
    b.process_row row = ((b.ensure_node subj (subj_label_of row)).1, true) := by
  unfold KGBuilder.process_row
  rw [h]
  have h2 : (b.ensure_node subj (subj_label_of row)).2 = true := by
    rw [ensure_node_flag]; exact hf
  simp only [h2, Bool.true_eq_false, if_neg, not_false_iff, hp, ho]

theorem process_row_badobjlabel {b : KGBuilder} {row : Row} {subj obj : String}
    {pid : Option String}
    (h : qidChain row "item" "item1" "subject" = .ok (some subj))
    (hf : flagOf (subj_label_of row) = true)
    (hp : pidChain row "prop" "p" = .ok pid)
    (ho : qidChain row "value" "item2" "o" = .ok (some obj))
    (hg : flagOf (obj_label_of row) = false) :
    b.process_row row =
      (((b.ensure_node subj (subj_label_of row)).1.ensure_node obj (obj_label_of row)).1,
        false) := by
  unfold KGBuilder.process_row
  rw [h]
  have h2 : (b.ensure_node subj (subj_label_of row)).2 = true := by
    rw [ensure_node_flag]; exact hf
  have h3 : ((b.ensure_node subj (subj_label_of row)).1.ensure_node obj (obj_label_of row)).2 = false := by
    rw [ensure_node_flag]; exact hg
  simp [h2, hp, ho, h3]

theorem process_row_full {b : KGBuilder} {row : Row} {subj obj : String} {pid : Option String}
    (h : qidChain row "item" "item1" "subject" = .ok (some subj))
    (hf : flagOf (subj_label_of row) = true)
    (hp : pidChain row "prop" "p" = .ok pid)
    (ho : qidChain row "value" "item2" "o" = .ok (some obj))
    (hg : flagOf (obj_label_of row) = true) :
    b.process_row row =
      ((b.ensure_node subj (subj_label_of row)).1.ensure_node obj (obj_label_of row)).1.add_edge
        subj obj pid (prop_label_of row pid) := by
  unfold KGBuilder.process_row
  rw [h]
  have h2 : (b.ensure_node subj (subj_label_of row)).2 = true := by
    rw [ensure_node_flag]; exact hf
  have h3 : ((b.ensure_node subj (subj_label_of row)).1.ensure_node obj (obj_label_of row)).2 = true := by
    rw [ensure_node_flag]; exact hg
  simp only [h2, Bool.true_eq_false, if_neg, not_false_iff, hp, ho, h3]

theorem flagOf_false_iff (l : JVal) :
    flagOf l = false ↔ (pyTruthy l = true ∧ pyHashable l = false) := by
  unfold flagOf
  by_cases ht : pyTruthy l = true <;> by_cases hh : pyHashable l = true <;> simp [ht, hh] <;>
    simp [Bool.not_eq_true] at ht hh <;> simp [ht, hh]

theorem mem_nodeKeys_add (b : KGBuilder) (src dst : String) (pid : Option String)
    (prop_label : JVal) (x : String) :
    x ∈ nodeKeys (b.add_edge src dst pid prop_label).1 ↔ x ∈ nodeKeys b := by
  unfold nodeKeys
  rw [add_edge_nodes]

theorem labelPairIn_add (b : KGBuilder) (src dst : String) (pid : Option String)
    (prop_label : JVal) (x : String) (m : JVal) :
    labelPairIn (b.add_edge src dst pid prop_label).1 x m ↔ labelPairIn b x m := by
  unfold labelPairIn
  rw [add_edge_nodes]

/-- The per-row contribution to the truthy hashable label pairs. -/
def pairOfLabel (q : String) (l : JVal) : List (String × JVal) :=
  if pyTruthy l && pyHashable l then [(q, l)] else []

theorem mem_pairOfLabel (q : String) (l : JVal) (x : String) (m : JVal) :
    (x, m) ∈ pairOfLabel q l ↔
      (pyTruthy l = true ∧ pyHashable l = true ∧ x = q ∧ m = l) := by
  unfold pairOfLabel
  by_cases hth : (pyTruthy l && pyHashable l) = true
  · have ht := (Bool.and_eq_true _ _).mp hth
    rw [if_pos hth]
    simp only [List.mem_singleton, Prod.mk.injEq]
    constructor
    · rintro ⟨h1, h2⟩
      exact ⟨ht.1, ht.2, h1, h2⟩
    · rintro ⟨_, _, h1, h2⟩
      exact ⟨h1, h2⟩
  · rw [if_neg hth]
    simp only [List.not_mem_nil, false_iff]
    rintro ⟨h1, h2, _, _⟩
    exact hth ((Bool.and_eq_true _ _).mpr ⟨h1, h2⟩)

/-- The abstract contribution of one raw row: which node ids it ensures,
which (id, label) pairs it records and which edge dedup keys it adds.
It depends only on the row, never on the builder state, mirroring the
control flow of process_row including its abort points. -/
structure RowEffect where
  ids : List String
  pairs : List (String × JVal)
  keys : List EdgeKey

def row_effect (r : JVal) : RowEffect :=
  match r with
  | .obj row =>
    match qidChain row "item" "item1" "subject" with
    | .error _ => ⟨[], [], []⟩
    | .ok none => ⟨[], [], []⟩
    | .ok (some subj) =>
      if flagOf (subj_label_of row) = false then ⟨[subj], [], []⟩
      else
        match pidChain row "prop" "p" with
        | .error _ => ⟨[subj], pairOfLabel subj (subj_label_of row), []⟩
        | .ok pid =>
          match qidChain row "value" "item2" "o" with
          | .error _ => ⟨[subj], pairOfLabel subj (subj_label_of row), []⟩
          | .ok none => ⟨[subj], pairOfLabel subj (subj_label_of row), []⟩
          | .ok (some obj) =>
            if flagOf (obj_label_of row) = false then
              ⟨[subj, obj], pairOfLabel subj (subj_label_of row), []⟩
            else if pyHashable (pyOr (prop_label_of row pid) (.str "")) then
              ⟨[subj, obj],
                pairOfLabel subj (subj_label_of row) ++ pairOfLabel obj (obj_label_of row),
                [(subj, obj, (pid.getD ""), pyOr (prop_label_of row pid) (.str ""))]⟩
            else
              ⟨[subj, obj],
                pairOfLabel subj (subj_label_of row) ++ pairOfLabel obj (obj_label_of row), []⟩
  | _ => ⟨[], [], []⟩

theorem effect_eq_degenerate (b : KGBuilder) {s : KGBuilder} {eff : RowEffect}
    (eq1 : s = b) (eq2 : eff = ⟨[], [], []⟩) :
    (∀ x, x ∈ nodeKeys s ↔ x ∈ nodeKeys b ∨ x ∈ eff.ids) ∧
    (∀ x m, labelPairIn s x m ↔ labelPairIn b x m ∨ (x, m) ∈ eff.pairs) ∧
    (∀ k, k ∈ s.edge_seen ↔ k ∈ b.edge_seen ∨ k ∈ eff.keys) := by
  subst eq1
  subst eq2
  exact ⟨fun x => by simp, fun x m => by simp, fun k => by simp⟩

theorem process_any_effect (b : KGBuilder) (r : JVal) :
    (∀ x, x ∈ nodeKeys (process_row_any b r).1 ↔ x ∈ nodeKeys b ∨ x ∈ (row_effect r).ids) ∧
    (∀ x m, labelPairIn (process_row_any b r).1 x m ↔
      labelPairIn b x m ∨ (x, m) ∈ (row_effect r).pairs) ∧
    (∀ k, k ∈ (process_row_any b r).1.edge_seen ↔
      k ∈ b.edge_seen ∨ k ∈ (row_effect r).keys) := by
  match r with
  | .null => exact effect_eq_degenerate b rfl rfl
  | .bool _ => exact effect_eq_degenerate b rfl rfl
  | .int _ => exact effect_eq_degenerate b rfl rfl
  | .float _ => exact effect_eq_degenerate b rfl rfl
  | .str _ => exact effect_eq_degenerate b rfl rfl
  | .arr _ => exact effect_eq_degenerate b rfl rfl
  | .pyobj _ => exact effect_eq_degenerate b rfl rfl
  | .obj row =>
    have hpr : process_row_any b (.obj row) = b.process_row row := rfl
    rw [hpr]
    cases hs : qidChain row "item" "item1" "subject" with
    | error e =>
      rw [process_row_subj_err hs]
      simp only [row_effect, hs]
      exact ⟨fun x => by simp, fun x m => by simp, fun k => by simp⟩
    | ok subjOpt =>
      cases subjOpt with
      | none =>
        rw [process_row_subj_none hs]
        simp only [row_effect, hs]
        exact ⟨fun x => by simp, fun x m => by simp, fun k => by simp⟩
      | some subj =>
        by_cases hf : flagOf (subj_label_of row) = false
        · rw [process_row_badlabel hs hf]
          simp only [row_effect, hs, if_pos hf]
          obtain ⟨hft, hfh⟩ := (flagOf_false_iff _).mp hf
          refine ⟨fun x => ?_, fun x m => ?_, fun k => ?_⟩
          · rw [mem_nodeKeys_ensure]
            simp
          · rw [labelPairIn_ensure]
            simp [hfh]
          · rw [ensure_node_seen_pres]
            simp
        · have hf2 : flagOf (subj_label_of row) = true := by
            simp only [Bool.not_eq_false] at hf
            exact hf
          have sublab : ∀ x m, labelPairIn (b.ensure_node subj (subj_label_of row)).1 x m ↔
              labelPairIn b x m ∨ (x, m) ∈ pairOfLabel subj (subj_label_of row) := by
            intro x m
            rw [labelPairIn_ensure, mem_pairOfLabel]
          cases hp : pidChain row "prop" "p" with
          | error e =>
            rw [process_row_pid_err hs hf2 hp]
            simp only [row_effect, hs, if_neg hf, hp]
            refine ⟨fun x => ?_, fun x m => ?_, fun k => ?_⟩
            · rw [mem_nodeKeys_ensure]; simp
            · rw [sublab]
            · rw [ensure_node_seen_pres]; simp
          | ok pid =>
            cases ho : qidChain row "value" "item2" "o" with
            | error e =>
              rw [process_row_obj_err hs hf2 hp ho]
              simp only [row_effect, hs, if_neg hf, hp, ho]
              refine ⟨fun x => ?_, fun x m => ?_, fun k => ?_⟩
              · rw [mem_nodeKeys_ensure]; simp
              · rw [sublab]
              · rw [ensure_node_seen_pres]; simp
            | ok objOpt =>
              cases objOpt with
              | none =>
                rw [process_row_obj_none hs hf2 hp ho]
                simp only [row_effect, hs, if_neg hf, hp, ho]
                refine ⟨fun x => ?_, fun x m => ?_, fun k => ?_⟩
                · rw [mem_nodeKeys_ensure]; simp
                · rw [sublab]
                · rw [ensure_node_seen_pres]; simp
              | some obj =>
                by_cases hg : flagOf (obj_label_of row) = false
                · rw [process_row_badobjlabel hs hf2 hp ho hg]
                  simp only [row_effect, hs, if_neg hf, hp, ho, if_pos hg]
                  obtain ⟨hgt, hgh⟩ := (flagOf_false_iff _).mp hg
                  refine ⟨fun x => ?_, fun x m => ?_, fun k => ?_⟩
                  · rw [mem_nodeKeys_ensure, mem_nodeKeys_ensure]
                    simp only [List.mem_cons, List.mem_singleton, List.not_mem_nil]
                    tauto
                  · rw [labelPairIn_ensure, sublab]
                    simp [hgh]
                  · rw [ensure_node_seen_pres, ensure_node_seen_pres]
                    simp
                · have hg2 : flagOf (obj_label_of row) = true := by
                    simp only [Bool.not_eq_false] at hg
                    exact hg
                  rw [process_row_full hs hf2 hp ho hg2]
                  by_cases hE : pyHashable (pyOr (prop_label_of row pid) (.str "")) = true
                  · simp only [row_effect, hs, if_neg hf, hp, ho, if_neg hg, if_pos hE]
                    refine ⟨fun x => ?_, fun x m => ?_, fun k => ?_⟩
                    · rw [mem_nodeKeys_add, mem_nodeKeys_ensure, mem_nodeKeys_ensure]
                      simp only [List.mem_cons, List.mem_singleton, List.not_mem_nil]
                      tauto
                    · rw [labelPairIn_add, labelPairIn_ensure, sublab, mem_pairOfLabel]
                      simp only [List.mem_append, mem_pairOfLabel]
                      tauto
                    · rw [mem_seen_add, ensure_node_seen_pres, ensure_node_seen_pres]
                      simp [hE]
                  · simp only [row_effect, hs, if_neg hf, hp, ho, if_neg hg, if_neg hE]
                    refine ⟨fun x => ?_, fun x m => ?_, fun k => ?_⟩
                    · rw [mem_nodeKeys_add, mem_nodeKeys_ensure, mem_nodeKeys_ensure]
                      simp only [List.mem_cons, List.mem_singleton, List.not_mem_nil]
                      tauto
                    · rw [labelPairIn_add, labelPairIn_ensure, sublab, mem_pairOfLabel]
                      simp only [List.mem_append, mem_pairOfLabel]
                      tauto
                    · rw [mem_seen_add, ensure_node_seen_pres, ensure_node_seen_pres]
                      simp [hE]

theorem ingest_rows_cons (b : KGBuilder) (r : JVal) (rest : List JVal) :
    ingest_rows b (r :: rest) = ingest_rows (process_row_any b r).1 rest := rfl

theorem ingest_rows_append (b : KGBuilder) (l1 l2 : List JVal) :
    ingest_rows b (l1 ++ l2) = ingest_rows (ingest_rows b l1) l2 := by
  unfold ingest_rows
  exact List.foldl_append ..

theorem ingest_rows_effect (b : KGBuilder) (rows : List JVal) :
    (∀ x, x ∈ nodeKeys (ingest_rows b rows) ↔
      x ∈ nodeKeys b ∨ ∃ r ∈ rows, x ∈ (row_effect r).ids) ∧
    (∀ x m, labelPairIn (ingest_rows b rows) x m ↔
      labelPairIn b x m ∨ ∃ r ∈ rows, (x, m) ∈ (row_effect r).pairs) ∧
    (∀ k, k ∈ (ingest_rows b rows).edge_seen ↔
      k ∈ b.edge_seen ∨ ∃ r ∈ rows, k ∈ (row_effect r).keys) := by
  induction rows generalizing b with
  | nil =>
    refine ⟨fun x => by simp [ingest_rows], fun x m => by simp [ingest_rows],
      fun k => by simp [ingest_rows]⟩
  | cons r rest ih =>
    obtain ⟨h1, h2, h3⟩ := process_any_effect b r
    obtain ⟨g1, g2, g3⟩ := ih (process_row_any b r).1
    rw [ingest_rows_cons]
    refine ⟨fun x => ?_, fun x m => ?_, fun k => ?_⟩
    · rw [g1, h1]
      simp only [List.mem_cons]
      constructor
      · rintro ((h | h) | ⟨r2, hr2, h⟩)
        · exact Or.inl h
        · exact Or.inr ⟨r, Or.inl rfl, h⟩
        · exact Or.inr ⟨r2, Or.inr hr2, h⟩
      · rintro (h | ⟨r2, (rfl | hr2), h⟩)
        · exact Or.inl (Or.inl h)
        · exact Or.inl (Or.inr h)
        · exact Or.inr ⟨r2, hr2, h⟩
    · rw [g2, h2]
      simp only [List.mem_cons]
      constructor
      · rintro ((h | h) | ⟨r2, hr2, h⟩)
        · exact Or.inl h
        · exact Or.inr ⟨r, Or.inl rfl, h⟩
        · exact Or.inr ⟨r2, Or.inr hr2, h⟩
      · rintro (h | ⟨r2, (rfl | hr2), h⟩)
        · exact Or.inl (Or.inl h)
        · exact Or.inl (Or.inr h)
        · exact Or.inr ⟨r2, hr2, h⟩
    · rw [g3, h3]
      simp only [List.mem_cons]
      constructor
      · rintro ((h | h) | ⟨r2, hr2, h⟩)
        · exact Or.inl h
        · exact Or.inr ⟨r, Or.inl rfl, h⟩
        · exact Or.inr ⟨r2, Or.inr hr2, h⟩
      · rintro (h | ⟨r2, (rfl | hr2), h⟩)
        · exact Or.inl (Or.inl h)
        · exact Or.inl (Or.inr h)
        · exact Or.inr ⟨r2, hr2, h⟩

/-- The rows contributed by one parsed document in build: the rows that
load_json_any yields, or none when it raises. -/
def rows_of_doc (doc : JVal) : List JVal :=
  match load_json_any doc with
  | .ok rows => rows
  | .error _ => []

theorem ingest_files_eq_ingest_rows (b : KGBuilder) (docs : List JVal) :
    ingest_files b docs = ingest_rows b (docs.flatMap rows_of_doc) := by
  induction docs generalizing b with
  | nil => rfl
  | cons d rest ih =>
    have hstep : ingest_files b (d :: rest) = ingest_files (ingest_rows b (rows_of_doc d)) rest := by
      unfold ingest_files rows_of_doc
      cases h : load_json_any d with
      | ok rows => simp [h, ingest_rows]
      | error e => simp [h, ingest_rows]
    rw [hstep, ih, List.flatMap_cons, ingest_rows_append]

/-- The invariant of claim C4: every stored edge has both endpoints in
the node dict. -/
def EdgesClosed (b : KGBuilder) : Prop :=
  ∀ e ∈ b.edges, e.source ∈ nodeKeys b ∧ e.target ∈ nodeKeys b

theorem edges_add_edge_sub {b : KGBuilder} {src dst : String} {pid : Option String}
    {prop_label : JVal} {e : Edge} (h : e ∈ (b.add_edge src dst pid prop_label).1.edges) :
    e ∈ b.edges ∨ e = ⟨src, dst, pid, prop_label⟩ := by
  unfold KGBuilder.add_edge at h
  by_cases hh : pyHashable (pyOr prop_label (.str "")) = true
  · rw [if_pos hh] at h
    by_cases hk : ((src, dst, (pid.getD ""), pyOr prop_label (.str "")) : EdgeKey) ∈ b.edge_seen
    · rw [if_pos hk] at h
      exact Or.inl h
    · rw [if_neg hk] at h
      simp only [List.mem_append, List.mem_singleton] at h
      exact h
  · rw [if_neg hh] at h
    exact Or.inl h

theorem process_any_edges {b : KGBuilder} {r : JVal} {e : Edge}
    (h : e ∈ (process_row_any b r).1.edges) :
    e ∈ b.edges ∨
      (e.source ∈ nodeKeys (process_row_any b r).1 ∧
        e.target ∈ nodeKeys (process_row_any b r).1) := by
  match r with
  | .null => exact Or.inl h
  | .bool _ => exact Or.inl h
  | .int _ => exact Or.inl h
  | .float _ => exact Or.inl h
  | .str _ => exact Or.inl h
  | .arr _ => exact Or.inl h
  | .pyobj _ => exact Or.inl h
  | .obj row =>
    have hpr : process_row_any b (.obj row) = b.process_row row := rfl
    rw [hpr] at h ⊢
    cases hs : qidChain row "item" "item1" "subject" with
    | error er =>
      rw [process_row_subj_err hs] at h ⊢
      exact Or.inl h
    | ok subjOpt =>
      cases subjOpt with
      | none =>
        rw [process_row_subj_none hs] at h ⊢
        exact Or.inl h
      | some subj =>
        by_cases hf : flagOf (subj_label_of row) = false
        · rw [process_row_badlabel hs hf] at h ⊢
          rw [ensure_node_edges] at h
          exact Or.inl h
        · have hf2 : flagOf (subj_label_of row) = true := by
            simp only [Bool.not_eq_false] at hf
            exact hf
          cases hp : pidChain row "prop" "p" with
          | error er =>
            rw [process_row_pid_err hs hf2 hp] at h ⊢
            rw [ensure_node_edges] at h
            exact Or.inl h
          | ok pid =>
            cases ho : qidChain row "value" "item2" "o" with
            | error er =>
              rw [process_row_obj_err hs hf2 hp ho] at h ⊢
              rw [ensure_node_edges] at h
              exact Or.inl h
            | ok objOpt =>
              cases objOpt with
              | none =>
                rw [process_row_obj_none hs hf2 hp ho] at h ⊢
                rw [ensure_node_edges] at h
                exact Or.inl h
              | some obj =>
                by_cases hg : flagOf (obj_label_of row) = false
                · rw [process_row_badobjlabel hs hf2 hp ho hg] at h ⊢
                  rw [ensure_node_edges, ensure_node_edges] at h
                  exact Or.inl h
                · have hg2 : flagOf (obj_label_of row) = true := by
                    simp only [Bool.not_eq_false] at hg
                    exact hg
                  rw [process_row_full hs hf2 hp ho hg2] at h ⊢
                  rcases edges_add_edge_sub h with h2 | h2
                  · rw [ensure_node_edges, ensure_node_edges] at h2
                    exact Or.inl h2
                  · right
                    subst h2
                    constructor
                    · rw [mem_nodeKeys_add, mem_nodeKeys_ensure, mem_nodeKeys_ensure]
                      exact Or.inl (Or.inr rfl)
                    · rw [mem_nodeKeys_add, mem_nodeKeys_ensure]
                      exact Or.inr rfl

theorem nodeKeys_mono_process {b : KGBuilder} {r : JVal} {x : String}
    (h : x ∈ nodeKeys b) : x ∈ nodeKeys (process_row_any b r).1 :=
  ((process_any_effect b r).1 x).mpr (Or.inl h)

theorem edgesClosed_process {b : KGBuilder} {r : JVal} (h : EdgesClosed b) :
    EdgesClosed (process_row_any b r).1 := by
  intro e he
  rcases process_any_edges he with h2 | h2
  · obtain ⟨hs, ht⟩ := h e h2
    exact ⟨nodeKeys_mono_process hs, nodeKeys_mono_process ht⟩
  · exact h2

theorem edgesClosed_ingest_rows {b : KGBuilder} (rows : List JVal) (h : EdgesClosed b) :
    EdgesClosed (ingest_rows b rows) := by
  induction rows generalizing b with
  | nil => exact h
  | cons r rest ih =>
    rw [ingest_rows_cons]
    exact ih (edgesClosed_process h)

theorem mem_of_lookup_eq_some {row : Row} {k : String} {v : JVal}
    (h : List.lookup k row = some v) : (k, v) ∈ row := by
  induction row with
  | nil => simp [List.lookup] at h
  | cons p rest ih =>
    rcases p with ⟨a, c⟩
    by_cases hk : (k == a) = true
    · have h1 : k = a := by simpa using hk
      simp only [List.lookup, hk] at h
      have h2 : c = v := by simpa using h
      subst h1; subst h2
      exact List.mem_cons_self ..
    · have hk2 : (k == a) = false := by simpa using hk
      simp only [List.lookup, hk2] at h
      exact List.mem_cons_of_mem _ (ih h)

theorem wf_rowGet {row : Row} (hwf : WFRow row) (k : String) :
    (get_value (rowGet row k)).isStr = true := by
  unfold rowGet
  cases h : List.lookup k row with
  | none => rfl
  | some v => exact hwf (k, v) (mem_of_lookup_eq_some h)

theorem extract_qid_ok_of_isStr {x : JVal} (h : (get_value x).isStr = true) :
    ∃ o, extract_qid x = .ok o := by
  unfold extract_qid
  cases hg : get_value x with
  | str s => exact ⟨_, rfl⟩
  | null => rw [hg] at h; simp [JVal.isStr] at h
  | bool c => rw [hg] at h; simp [JVal.isStr] at h
  | int i => rw [hg] at h; simp [JVal.isStr] at h
  | float r => rw [hg] at h; simp [JVal.isStr] at h
  | arr xs => rw [hg] at h; simp [JVal.isStr] at h
  | obj kvs => rw [hg] at h; simp [JVal.isStr] at h
  | pyobj s => rw [hg] at h; simp [JVal.isStr] at h

theorem extract_pid_ok_of_isStr {x : JVal} (h : (get_value x).isStr = true) :
    ∃ o, extract_pid x = .ok o := by
  unfold extract_pid
  cases hg : get_value x with
  | str s => exact ⟨_, rfl⟩
  | null => rw [hg] at h; simp [JVal.isStr] at h
  | bool c => rw [hg] at h; simp [JVal.isStr] at h
  | int i => rw [hg] at h; simp [JVal.isStr] at h
  | float r => rw [hg] at h; simp [JVal.isStr] at h
  | arr xs => rw [hg] at h; simp [JVal.isStr] at h
  | obj kvs => rw [hg] at h; simp [JVal.isStr] at h
  | pyobj s => rw [hg] at h; simp [JVal.isStr] at h

theorem wf_qidChain_ok {row : Row} (hwf : WFRow row) (k1 k2 k3 : String) :
    ∃ res, qidChain row k1 k2 k3 = .ok res := by
  obtain ⟨o1, h1⟩ := extract_qid_ok_of_isStr (wf_rowGet hwf k1)
  obtain ⟨o2, h2⟩ := extract_qid_ok_of_isStr (wf_rowGet hwf k2)
  obtain ⟨o3, h3⟩ := extract_qid_ok_of_isStr (wf_rowGet hwf k3)
  unfold qidChain
  rw [h1]
  cases o1 with
  | some q => exact ⟨some q, rfl⟩
  | none =>
    rw [show ((Except.ok none : Except Unit (Option String)) >>= fun a =>
        match a with
        | some q => pure (some q)
        | none => (extract_qid (rowGet row k2) >>= fun a =>
            match a with
            | some q => pure (some q)
            | none => extract_qid (rowGet row k3))) =
        (extract_qid (rowGet row k2) >>= fun a =>
            match a with
            | some q => pure (some q)
            | none => extract_qid (rowGet row k3)) from rfl, h2]
    cases o2 with
    | some q => exact ⟨some q, rfl⟩
    | none =>
      rw [show ((Except.ok none : Except Unit (Option String)) >>= fun a =>
          match a with
          | some q => pure (some q)
          | none => extract_qid (rowGet row k3)) = extract_qid (rowGet row k3) from rfl, h3]
      exact ⟨o3, rfl⟩

theorem wf_pidChain_ok {row : Row} (hwf : WFRow row) (k1 k2 : String) :
    ∃ res, pidChain row k1 k2 = .ok res := by
  obtain ⟨o1, h1⟩ := extract_pid_ok_of_isStr (wf_rowGet hwf k1)
  obtain ⟨o2, h2⟩ := extract_pid_ok_of_isStr (wf_rowGet hwf k2)
  unfold pidChain
  rw [h1]
  cases o1 with
  | some q => exact ⟨some q, rfl⟩
  | none =>
    rw [show ((Except.ok none : Except Unit (Option String)) >>= fun a =>
        match a with
        | some q => pure (some q)
        | none => extract_pid (rowGet row k2)) = extract_pid (rowGet row k2) from rfl, h2]
    exact ⟨o2, rfl⟩

theorem isStr_pyOr {a c : JVal} (ha : a.isStr = true) (hc : c.isStr = true) :
    (pyOr a c).isStr = true := by
  unfold pyOr
  by_cases ht : pyTruthy a = true
  · rw [if_pos ht]; exact ha
  · rw [if_neg ht]; exact hc

theorem wf_labelChain_isStr {row : Row} (hwf : WFRow row) (k1 k2 k3 : String) :
    (labelChain row k1 k2 k3).isStr = true := by
  unfold labelChain
  exact isStr_pyOr (wf_rowGet hwf k1) (isStr_pyOr (wf_rowGet hwf k2) (wf_rowGet hwf k3))

theorem pyHashable_of_isStr {l : JVal} (h : l.isStr = true) : pyHashable l = true := by
  cases l <;> simp [JVal.isStr] at h <;> rfl

theorem flagOf_true_of_hashable {l : JVal} (h : pyHashable l = true) : flagOf l = true := by
  unfold flagOf
  rw [h]
  simp

/-- Processing the same row a second time, from the state the first pass
produced, changes nothing and reports the same flag. -/
theorem process_row_idem (b : KGBuilder) (row : Row) :
    (b.process_row row).1.process_row row = b.process_row row := by
  cases hs : qidChain row "item" "item1" "subject" with
  | error e =>
    have h1 := process_row_subj_err (b := b) hs
    rw [h1]
    exact process_row_subj_err hs
  | ok subjOpt =>
    cases subjOpt with
    | none =>
      have h1 := process_row_subj_none (b := b) hs
      rw [h1]
      exact process_row_subj_none hs
    | some subj =>
      by_cases hf : flagOf (subj_label_of row) = false
      · have h1 := process_row_badlabel (b := b) hs hf
        rw [h1]
        show (b.ensure_node subj (subj_label_of row)).1.process_row row
            = ((b.ensure_node subj (subj_label_of row)).1, false)
        rw [process_row_badlabel hs hf,
          ensure_node_fix (ensure_node_est b subj (subj_label_of row))]
      · have hf2 : flagOf (subj_label_of row) = true := by
          simp only [Bool.not_eq_false] at hf
          exact hf
        have hest := ensure_node_est b subj (subj_label_of row)
        cases hp : pidChain row "prop" "p" with
        | error e =>
          have h1 := process_row_pid_err (b := b) hs hf2 hp
          rw [h1]
          show (b.ensure_node subj (subj_label_of row)).1.process_row row
              = ((b.ensure_node subj (subj_label_of row)).1, false)
          rw [process_row_pid_err hs hf2 hp, ensure_node_fix hest]
        | ok pid =>
          cases ho : qidChain row "value" "item2" "o" with
          | error e =>
            have h1 := process_row_obj_err (b := b) hs hf2 hp ho
            rw [h1]
            show (b.ensure_node subj (subj_label_of row)).1.process_row row
                = ((b.ensure_node subj (subj_label_of row)).1, false)
            rw [process_row_obj_err hs hf2 hp ho, ensure_node_fix hest]
          | ok objOpt =>
            cases objOpt with
            | none =>
              have h1 := process_row_obj_none (b := b) hs hf2 hp ho
              rw [h1]
              show (b.ensure_node subj (subj_label_of row)).1.process_row row
                  = ((b.ensure_node subj (subj_label_of row)).1, true)
              rw [process_row_obj_none hs hf2 hp ho, ensure_node_fix hest]
            | some obj =>
              by_cases hg : flagOf (obj_label_of row) = false
              · have h1 := process_row_badobjlabel (b := b) hs hf2 hp ho hg
                rw [h1]
                show ((b.ensure_node subj (subj_label_of row)).1.ensure_node obj
                      (obj_label_of row)).1.process_row row
                    = (((b.ensure_node subj (subj_label_of row)).1.ensure_node obj
                      (obj_label_of row)).1, false)
                rw [process_row_badobjlabel hs hf2 hp ho hg,
                  ensure_node_fix (ensured_mono_ensure obj (obj_label_of row) hest),
                  ensure_node_fix
                    (ensure_node_est (b.ensure_node subj (subj_label_of row)).1 obj
                      (obj_label_of row))]
              · have hg2 : flagOf (obj_label_of row) = true := by
                  simp only [Bool.not_eq_false] at hg
                  exact hg
                have h1 := process_row_full (b := b) hs hf2 hp ho hg2
                rw [h1]
                rw [process_row_full hs hf2 hp ho hg2,
                  ensure_node_fix (ensured_mono_add subj obj pid (prop_label_of row pid)
                    (ensured_mono_ensure obj (obj_label_of row) hest)),
                  ensure_node_fix (ensured_mono_add subj obj pid (prop_label_of row pid)
                    (ensure_node_est (b.ensure_node subj (subj_label_of row)).1 obj
                      (obj_label_of row)))]
                by_cases hE : pyHashable (pyOr (prop_label_of row pid) (.str "")) = true
                · have hkey : ((subj, obj, (pid.getD ""),
                      pyOr (prop_label_of row pid) (.str "")) : EdgeKey) ∈
                      (((b.ensure_node subj (subj_label_of row)).1.ensure_node obj
                        (obj_label_of row)).1.add_edge subj obj pid
                        (prop_label_of row pid)).1.edge_seen := by
                    rw [mem_seen_add]
                    exact Or.inr ⟨hE, rfl⟩
                  refine Prod.ext_iff.mpr ⟨?_, ?_⟩
                  · rw [add_edge_fix (Or.inl hkey)]
                  · rw [add_edge_flag, add_edge_flag]
                · have hE2 : pyHashable (pyOr (prop_label_of row pid) (.str "")) = false := by
                    simp only [Bool.not_eq_true] at hE
                    exact hE
                  refine Prod.ext_iff.mpr ⟨?_, ?_⟩
                  · rw [add_edge_fix (Or.inr hE2)]
                  · rw [add_edge_flag, add_edge_flag]

theorem lexLe_cons_iff (a b : Char) (as bs : List Char) :
    lexLe (a :: as) (b :: bs) = true ↔
      (a.toNat < b.toNat ∨ (a.toNat = b.toNat ∧ lexLe as bs = true)) := by
  simp only [lexLe]
  by_cases h1 : a.toNat < b.toNat
  · simp [h1]
  · by_cases h2 : b.toNat < a.toNat
    · simp only [h1, if_neg, not_false_iff, h2, if_pos]
      constructor
      · intro h; simp at h
      · intro h
        exfalso
        rcases h with h | ⟨h, _⟩
        · exact h
        · omega
    · have he : a.toNat = b.toNat := by omega
      simp [h1, h2, he]

theorem lexLe_refl : ∀ as : List Char, lexLe as as = true := by
  intro as
  induction as with
  | nil => rfl
  | cons a as ih =>
    rw [lexLe_cons_iff]
    exact Or.inr ⟨rfl, ih⟩

theorem lexLe_total : ∀ as bs : List Char, lexLe as bs = true ∨ lexLe bs as = true := by
  intro as
  induction as with
  | nil => intro bs; exact Or.inl rfl
  | cons a as ih =>
    intro bs
    cases bs with
    | nil => exact Or.inr rfl
    | cons b bs =>
      rw [lexLe_cons_iff, lexLe_cons_iff]
      rcases Nat.lt_trichotomy a.toNat b.toNat with h | h | h
      · exact Or.inl (Or.inl h)
      · rcases ih bs with h2 | h2
        · exact Or.inl (Or.inr ⟨h, h2⟩)
        · exact Or.inr (Or.inr ⟨h.symm, h2⟩)
      · exact Or.inr (Or.inl h)

theorem lexLe_trans : ∀ as bs cs : List Char,
    lexLe as bs = true → lexLe bs cs = true → lexLe as cs = true := by
  intro as
  induction as with
  | nil => intro bs cs _ _; rfl
  | cons a as ih =>
    intro bs cs h1 h2
    cases bs with
    | nil => simp [lexLe] at h1
    | cons b bs =>
      cases cs with
      | nil => simp [lexLe] at h2
      | cons c cs =>
        rw [lexLe_cons_iff] at h1 h2 ⊢
        rcases h1 with h1 | ⟨h1e, h1r⟩
        · rcases h2 with h2 | ⟨h2e, _⟩
          · exact Or.inl (Nat.lt_trans h1 h2)
          · exact Or.inl (by omega)
        · rcases h2 with h2 | ⟨h2e, h2r⟩
          · exact Or.inl (by omega)
          · exact Or.inr ⟨by omega, ih bs cs h1r h2r⟩

theorem char_eq_of_toNat_eq {a b : Char} (h : a.toNat = b.toNat) : a = b :=
  Char.ext (UInt32.ext h)

theorem lexLe_antisymm : ∀ as bs : List Char,
    lexLe as bs = true → lexLe bs as = true → as = bs := by
  intro as
  induction as with
  | nil =>
    intro bs _ h2
    cases bs with
    | nil => rfl
    | cons b bs => simp [lexLe] at h2
  | cons a as ih =>
    intro bs h1 h2
    cases bs with
    | nil => simp [lexLe] at h1
    | cons b bs =>
      rw [lexLe_cons_iff] at h1 h2
      rcases h1 with h1 | ⟨h1e, h1r⟩
      · rcases h2 with h2 | ⟨h2e, _⟩ <;> omega
      · rcases h2 with h2 | ⟨h2e, h2r⟩
        · omega
        · rw [char_eq_of_toNat_eq h1e, ih bs h1r h2r]

instance : IsTotal String strRel :=
  ⟨fun a b => lexLe_total a.data b.data⟩

instance : IsTrans String strRel :=
  ⟨fun a b c h1 h2 => lexLe_trans a.data b.data c.data h1 h2⟩

theorem string_eq_of_data_eq {s t : String} (h : s.data = t.data) : s = t := by
  cases s with
  | mk d1 =>
    cases t with
    | mk d2 => exact congrArg String.mk h

instance : IsAntisymm String strRel :=
  ⟨fun a b h1 h2 => string_eq_of_data_eq (lexLe_antisymm a.data b.data h1 h2)⟩

theorem strLe_refl (s : String) : strLe s s = true := lexLe_refl s.data

theorem sortStrs_perm (l : List String) : (sortStrs l).Perm l :=
  List.perm_insertionSort strRel l

theorem sortStrs_sorted (l : List String) : List.Pairwise strRel (sortStrs l) :=
  List.sorted_insertionSort strRel l

theorem sortStrs_eq_of_perm {l1 l2 : List String} (h : l1.Perm l2) :
    sortStrs l1 = sortStrs l2 := by
  apply List.eq_of_perm_of_sorted (r := strRel)
  · exact ((sortStrs_perm l1).trans h).trans (sortStrs_perm l2).symm
  · exact sortStrs_sorted l1
  · exact sortStrs_sorted l2

/-- The code-point order on string-valued JVals, as used in the claims
about canonical labels. -/
def labelLe (a c : JVal) : Prop := strLe (jvalAsStr a) (jvalAsStr c) = true

theorem map_str_asStr {labels : List JVal} (h : ∀ l ∈ labels, l.isStr = true) :
    labels.map (fun v => JVal.str (jvalAsStr v)) = labels := by
  conv_rhs => rw [← List.map_id labels]
  apply List.map_congr_left
  intro v hv
  have hs := h v hv
  cases v with
  | str s => rfl
  | null => simp [JVal.isStr] at hs
  | bool c => simp [JVal.isStr] at hs
  | int i => simp [JVal.isStr] at hs
  | float r => simp [JVal.isStr] at hs
  | arr xs => simp [JVal.isStr] at hs
  | obj kvs => simp [JVal.isStr] at hs
  | pyobj s => simp [JVal.isStr] at hs

theorem pySorted_str {labels : List JVal} (h : ∀ l ∈ labels, l.isStr = true) :
    ∃ s, pySorted labels = .ok s ∧ s.Perm labels ∧ List.Pairwise labelLe s := by
  unfold pySorted
  by_cases hlen : labels.length ≤ 1
  · rw [if_pos hlen]
    refine ⟨labels, rfl, List.Perm.refl _, ?_⟩
    cases labels with
    | nil => exact List.Pairwise.nil
    | cons a rest =>
      cases rest with
      | nil => simp
      | cons c r2 => simp at hlen
  · rw [if_neg hlen]
    have hall : labels.all JVal.isStr = true := by
      rw [List.all_eq_true]
      exact h
    rw [if_pos hall]
    refine ⟨_, rfl, ?_, ?_⟩
    · have h1 : ((sortStrs (labels.map jvalAsStr)).map JVal.str).Perm
          ((labels.map jvalAsStr).map JVal.str) := (sortStrs_perm _).map _
      have h2 : (labels.map jvalAsStr).map JVal.str = labels := by
        rw [List.map_map]
        exact map_str_asStr h
      rw [h2] at h1
      exact h1
    · refine List.Pairwise.map _ ?_ (sortStrs_sorted (labels.map jvalAsStr))
      intro a c hac
      exact hac

theorem labelLe_refl (a : JVal) : labelLe a a := strLe_refl _

theorem pairwise_head_le {a : JVal} {t : List JVal} (h : List.Pairwise labelLe (a :: t)) :
    ∀ l ∈ a :: t, labelLe a l := by
  intro l hl
  rcases List.mem_cons.mp hl with rfl | hl
  · exact labelLe_refl l
  · exact (List.pairwise_cons.mp h).1 l hl

theorem normalize_node_spec {n : Node} (h : ∀ l ∈ n.labels, l.isStr = true) :
    ∃ m, normalize_node n = .ok m ∧ m.id = n.id ∧ m.labels.Perm n.labels ∧
      List.Pairwise labelLe m.labels ∧
      (n.labels = [] → m.label = .str "") ∧
      (n.labels ≠ [] → m.label ∈ n.labels ∧ ∀ l ∈ n.labels, labelLe m.label l) := by
  obtain ⟨s, hs, hperm, hsort⟩ := pySorted_str h
  have hnorm : normalize_node n =
      .ok ⟨n.id, if n.labels.isEmpty then .str "" else s.headD (.str ""), s⟩ := by
    unfold normalize_node
    rw [hs]
    rfl
  refine ⟨_, hnorm, rfl, hperm, hsort, ?_, ?_⟩
  · intro hemp
    simp [hemp]
  · intro hne
    have hsne : s ≠ [] := by
      intro hcon
      rw [hcon] at hperm
      exact hne hperm.symm.eq_nil
    cases s with
    | nil => exact absurd rfl hsne
    | cons a t =>
      have hemp : n.labels.isEmpty = false := by
        cases hl : n.labels with
        | nil => exact absurd hl hne
        | cons x y => rfl
      constructor
      · simp only [hemp, Bool.false_eq_true, if_neg, not_false_iff, List.headD_cons]
        exact hperm.mem_iff.mp (List.mem_cons_self ..)
      · intro l hl
        simp only [hemp, Bool.false_eq_true, if_neg, not_false_iff, List.headD_cons]
        exact pairwise_head_le hsort l (hperm.mem_iff.mpr hl)

/-- A concrete subject-only row used in witnesses. -/
def rowSubjOnly : Row :=
  [("item", JVal.str "http://x/entity/Q1"),
   ("itemLabel", JVal.obj [("value", JVal.str "Earth")])]

/-- A concrete full row (subject, property, object) used in witnesses,
matching the round-trip scenario of the spec. -/
def rowRT : Row :=
  [("item", JVal.str "http://x/entity/Q1"),
   ("itemLabel", JVal.obj [("value", JVal.str "Earth")]),
   ("prop", JVal.str "http://x/prop/direct/P31"),
   ("propLabel", JVal.obj [("value", JVal.str "instance of")]),
   ("value", JVal.str "http://x/entity/Q2"),
   ("valueLabel", JVal.obj [("value", JVal.str "Planet")])]

/-- The node of the canonical-label example: labels observed as Beta,
Alpha, alpha. -/
def nodeBAa : Node := ⟨"Q1", [.str "Beta", .str "Alpha", .str "alpha"]⟩

/-! ## Claim theorems -/

theorem get_value_obj (kvs : List (String × JVal)) :
    get_value (.obj kvs) = (List.lookup "value" kvs).getD (.str "") := rfl

theorem load_json_any_obj (kvs : List (String × JVal)) :
    load_json_any (.obj kvs) =
      (match (List.lookup "results" kvs).getD (.obj []) with
        | .obj rkvs =>
          (match List.lookup "bindings" rkvs with
            | some (.arr xs) => Except.ok xs
            | _ => Except.ok [JVal.obj kvs])
        | _ => .error ()) := rfl

/-- C6 counterexample: the claim says get_value always returns a string,
in particular on a wrapped cell whose "value" field holds any value; but
on a wrapped cell holding the integer 5 the code returns the raw integer,
not a string. -/
theorem c6_get_value_counterexample :
    get_value (.obj [("value", .int 5)]) = .int 5 ∧
    (get_value (.obj [("value", .int 5)])).isStr = false := by
  decide

/-- C6 (amended): get_value never fails; it returns the empty string for
null, the raw "value" entry of a wrapped mapping (the empty string when
that entry is missing) - which is a string exactly when the entry holds
text or is absent - and the str() form of any non-mapping value, which
is always a string. -/
theorem c6_get_value_amended :
    (get_value .null = .str "") ∧
    (∀ kvs : List (String × JVal),
      get_value (.obj kvs) = (List.lookup "value" kvs).getD (.str "")) ∧
    (∀ kvs s, List.lookup "value" kvs = some (.str s) → get_value (.obj kvs) = .str s) ∧
    (∀ kvs, List.lookup "value" kvs = none → get_value (.obj kvs) = .str "") ∧
    (∀ v : JVal, (∀ kvs, v ≠ .obj kvs) → (get_value v).isStr = true) ∧
    (∀ s, get_value (.str s) = .str s) ∧
    (∀ i, get_value (.int i) = .str (pyStr (.int i))) ∧
    (∀ c, get_value (.bool c) = .str (pyStr (.bool c))) ∧
    (∀ r, get_value (.float r) = .str (pyStr (.float r))) := by
  refine ⟨rfl, fun kvs => rfl, ?_, ?_, ?_, fun s => rfl, fun i => rfl, fun c => rfl,
    fun r => rfl⟩
  · intro kvs s h
    rw [get_value_obj, h]
    rfl
  · intro kvs h
    rw [get_value_obj, h]
    rfl
  · intro v h
    cases v with
    | obj kvs => exact absurd rfl (h kvs)
    | null => rfl
    | bool c => rfl
    | int i => rfl
    | float r => rfl
    | str s => rfl
    | arr xs => rfl
    | pyobj s => rfl

/-- C6 witness: the amended statement evaluated at concrete cells. -/
theorem c6_get_value_witness :
    List.lookup "value" [("value", JVal.str "Earth")] = some (.str "Earth") ∧
    get_value (.obj [("value", .str "Earth")]) = .str "Earth" ∧
    (get_value (.int 7)).isStr = true :=
  ⟨by decide, c6_get_value_amended.2.2.1 [("value", .str "Earth")] "Earth" (by decide),
    c6_get_value_amended.2.2.2.2.1 (.int 7) (by intro kvs h; cases h)⟩

/-- C7 counterexample: the claim says any parsed document that is neither
a bindings wrapper nor a bare list contributes the one-element list
holding the document; but a mapping whose "results" entry is the integer
5 makes load_json_any raise instead. -/
theorem c7_loader_counterexample :
    load_json_any (.obj [("results", .int 5)]) = .error () ∧
    load_json_any (.obj [("results", .int 5)]) ≠
      .ok [.obj [("results", .int 5)]] := by
  decide

/-- C7 (amended): the loader yields rows by exactly three shapes - a
mapping whose "results" entry is a mapping holding a list under
"bindings" gives that list, a bare list gives itself, and any other
parsed document gives the one-element list holding the document - except
that a mapping whose "results" entry is present but is not itself a
mapping raises (and build then skips that file). -/
theorem c7_loader_amended :
    (∀ kvs rkvs xs, List.lookup "results" kvs = some (.obj rkvs) →
      List.lookup "bindings" rkvs = some (.arr xs) →
      load_json_any (.obj kvs) = .ok xs) ∧
    (∀ xs, load_json_any (.arr xs) = .ok xs) ∧
    (∀ v : JVal, (∀ kvs, v ≠ .obj kvs) → (∀ xs, v ≠ .arr xs) →
      load_json_any v = .ok [v]) ∧
    (∀ kvs, List.lookup "results" kvs = none → load_json_any (.obj kvs) = .ok [.obj kvs]) ∧
    (∀ kvs rkvs, List.lookup "results" kvs = some (.obj rkvs) →
      (∀ xs, List.lookup "bindings" rkvs ≠ some (.arr xs)) →
      load_json_any (.obj kvs) = .ok [.obj kvs]) ∧
    (∀ kvs r, List.lookup "results" kvs = some r → (∀ rkvs, r ≠ .obj rkvs) →
      load_json_any (.obj kvs) = .error ()) := by
  refine ⟨?_, fun xs => rfl, ?_, ?_, ?_, ?_⟩
  · intro kvs rkvs xs h1 h2
    rw [load_json_any_obj, h1]
    show (match List.lookup "bindings" rkvs with
      | some (.arr xs) => Except.ok xs
      | _ => Except.ok [JVal.obj kvs]) = Except.ok xs
    rw [h2]
  · intro v h1 h2
    cases v with
    | obj kvs => exact absurd rfl (h1 kvs)
    | arr xs => exact absurd rfl (h2 xs)
    | null => rfl
    | bool c => rfl
    | int i => rfl
    | float r => rfl
    | str s => rfl
    | pyobj s => rfl
  · intro kvs h
    rw [load_json_any_obj, h]
    rfl
  · intro kvs rkvs h1 h2
    rw [load_json_any_obj, h1]
    show (match List.lookup "bindings" rkvs with
      | some (.arr xs) => Except.ok xs
      | _ => Except.ok [JVal.obj kvs]) = Except.ok [JVal.obj kvs]
    cases hb : List.lookup "bindings" rkvs with
    | none => rfl
    | some v =>
      cases v with
      | arr xs => exact absurd hb (h2 xs)
      | null => rfl
      | bool c => rfl
      | int i => rfl
      | float r => rfl
      | str s => rfl
      | obj kvs2 => rfl
      | pyobj s => rfl
  · intro kvs r h1 h2
    rw [load_json_any_obj, h1]
    cases r with
    | obj rkvs => exact absurd rfl (h2 rkvs)
    | null => rfl
    | bool c => rfl
    | int i => rfl
    | float r2 => rfl
    | str s => rfl
    | arr xs => rfl
    | pyobj s => rfl

/-- C7 witness: the amended statement applied to a concrete wrapper
document and a concrete plain scalar document. -/
theorem c7_loader_witness :
    List.lookup "results" [("results", JVal.obj [("bindings", JVal.arr [.int 1])])] =
      some (.obj [("bindings", JVal.arr [.int 1])]) ∧
    load_json_any (.obj [("results", .obj [("bindings", .arr [.int 1])])]) = .ok [.int 1] ∧
    load_json_any (.str "x") = .ok [.str "x"] :=
  ⟨by decide,
    c7_loader_amended.1 [("results", .obj [("bindings", .arr [.int 1])])]
      [("bindings", .arr [.int 1])] [.int 1] (by decide) (by decide),
    c7_loader_amended.2.2.1 (.str "x") (by intro kvs h; cases h) (by intro xs h; cases h)⟩

/-- A composite (non-null, non-primitive) value: a list, a dict, or a
non-serializable object. -/
def isComposite : JVal → Bool
  | .arr _ => true
  | .obj _ => true
  | .pyobj _ => true
  | _ => false

/-- C9: sanitize_scalar maps null to the empty string, passes the four
primitive kinds through unchanged, maps any composite value to its
compact JSON text when json.dumps succeeds, and falls back to the
generic str() form when json.dumps raises. -/
theorem c9_sanitize_scalar :
    (sanitize_scalar .null = .str "") ∧
    (∀ s, sanitize_scalar (.str s) = .str s) ∧
    (∀ i, sanitize_scalar (.int i) = .int i) ∧
    (∀ r, sanitize_scalar (.float r) = .float r) ∧
    (∀ c, sanitize_scalar (.bool c) = .bool c) ∧
    (∀ v, isComposite v = true → ∀ s, jsonDumps v = some s → sanitize_scalar v = .str s) ∧
    (∀ v, isComposite v = true → jsonDumps v = none → sanitize_scalar v = .str (pyStr v)) := by
  refine ⟨rfl, fun s => rfl, fun i => rfl, fun r => rfl, fun c => rfl, ?_, ?_⟩
  · intro v hc s h
    cases v with
    | arr xs =>
      show (match jsonDumps (.arr xs) with
        | some s => JVal.str s
        | none => JVal.str (pyStr (.arr xs))) = JVal.str s
      rw [h]
    | obj kvs =>
      show (match jsonDumps (.obj kvs) with
        | some s => JVal.str s
        | none => JVal.str (pyStr (.obj kvs))) = JVal.str s
      rw [h]
    | pyobj s2 => cases h
    | null => cases hc
    | bool c => cases hc
    | int i => cases hc
    | float r => cases hc
    | str s2 => cases hc
  · intro v hc h
    cases v with
    | arr xs =>
      show (match jsonDumps (.arr xs) with
        | some s => JVal.str s
        | none => JVal.str (pyStr (.arr xs))) = JVal.str (pyStr (.arr xs))
      rw [h]
    | obj kvs =>
      show (match jsonDumps (.obj kvs) with
        | some s => JVal.str s
        | none => JVal.str (pyStr (.obj kvs))) = JVal.str (pyStr (.obj kvs))
      rw [h]
    | pyobj s2 => rfl
    | null => cases hc
    | bool c => cases hc
    | int i => cases hc
    | float r => cases hc
    | str s2 => cases hc

/-- C9 witness: a concrete nested structure serializes to compact JSON
text with no separator whitespace and the non-ASCII character kept, and
a structure holding a non-serializable object falls back to str(). -/
theorem c9_sanitize_scalar_witness :
    isComposite (JVal.obj [("a", .arr [.int 1, .str "é"])]) = true ∧
    jsonDumps (JVal.obj [("a", .arr [.int 1, .str "é"])]) =
      some "\x7b\"a\":[1,\"é\"]\x7d" ∧
    sanitize_scalar (JVal.obj [("a", .arr [.int 1, .str "é"])]) =
      .str "\x7b\"a\":[1,\"é\"]\x7d" ∧
    jsonDumps (JVal.arr [.int 1, .pyobj "<thing>"]) = none ∧
    sanitize_scalar (JVal.arr [.int 1, .pyobj "<thing>"]) =
      .str (pyStr (JVal.arr [.int 1, .pyobj "<thing>"])) :=
  ⟨by decide, by decide,
    c9_sanitize_scalar.2.2.2.2.2.1 (JVal.obj [("a", .arr [.int 1, .str "é"])]) (by decide)
      "\x7b\"a\":[1,\"é\"]\x7d" (by decide),
    by decide,
    c9_sanitize_scalar.2.2.2.2.2.2 (JVal.arr [.int 1, .pyobj "<thing>"]) (by decide)
      (by decide)⟩

theorem process_row_new_edge {b : KGBuilder} {row : Row} {e : Edge}
    (he : e ∈ (b.process_row row).1.edges) (hnew : e ∉ b.edges) :
    ∃ subj obj pid, qidChain row "item" "item1" "subject" = .ok (some subj) ∧
      pidChain row "prop" "p" = .ok pid ∧
      qidChain row "value" "item2" "o" = .ok (some obj) ∧
      e = ⟨subj, obj, pid, prop_label_of row pid⟩ := by
  cases hs : qidChain row "item" "item1" "subject" with
  | error er =>
    rw [process_row_subj_err hs] at he
    exact absurd he hnew
  | ok subjOpt =>
    cases subjOpt with
    | none =>
      rw [process_row_subj_none hs] at he
      exact absurd he hnew
    | some subj =>
      by_cases hf : flagOf (subj_label_of row) = false
      · rw [process_row_badlabel hs hf, ensure_node_edges] at he
        exact absurd he hnew
      · have hf2 : flagOf (subj_label_of row) = true := by
          simp only [Bool.not_eq_false] at hf
          exact hf
        cases hp : pidChain row "prop" "p" with
        | error er =>
          rw [process_row_pid_err hs hf2 hp, ensure_node_edges] at he
          exact absurd he hnew
        | ok pid =>
          cases ho : qidChain row "value" "item2" "o" with
          | error er =>
            rw [process_row_obj_err hs hf2 hp ho, ensure_node_edges] at he
            exact absurd he hnew
          | ok objOpt =>
            cases objOpt with
            | none =>
              rw [process_row_obj_none hs hf2 hp ho, ensure_node_edges] at he
              exact absurd he hnew
            | some obj =>
              by_cases hg : flagOf (obj_label_of row) = false
              · rw [process_row_badobjlabel hs hf2 hp ho hg, ensure_node_edges,
                  ensure_node_edges] at he
                exact absurd he hnew
              · have hg2 : flagOf (obj_label_of row) = true := by
                  simp only [Bool.not_eq_false] at hg
                  exact hg
                rw [process_row_full hs hf2 hp ho hg2] at he
                rcases edges_add_edge_sub he with h2 | h2
                · rw [ensure_node_edges, ensure_node_edges] at h2
                  exact absurd h2 hnew
                · exact ⟨subj, obj, pid, rfl, rfl, rfl, h2⟩

theorem mkcons_ne_empty (c : Char) (ds : List Char) : String.mk (c :: ds) ≠ "" := by
  intro h
  have hd := congrArg String.data h
  have h4 : ("" : String).data = [] := by decide
  rw [h4] at hd
  exact absurd hd (by simp)

theorem reSearchAnchored_ne_empty {lit : List Char} {c : Char} {s p : String}
    (h : reSearchAnchored lit c s = some p) : p ≠ "" := by
  intro hcon
  subst hcon
  unfold reSearchAnchored at h
  split at h
  · dsimp only at h
    split at h
    · cases h
    · split at h
      · exact absurd (Option.some.inj h) (mkcons_ne_empty _ _)
      · cases h
  · dsimp only at h
    split at h
    · cases h
    · split at h
      · exact absurd (Option.some.inj h) (mkcons_ne_empty _ _)
      · cases h

theorem extract_pid_ne_empty {x : JVal} {p : String}
    (h : extract_pid x = .ok (some p)) : p ≠ "" := by
  unfold extract_pid at h
  cases hg : get_value x with
  | str s =>
    rw [hg] at h
    exact reSearchAnchored_ne_empty (Except.ok.inj h)
  | null => rw [hg] at h; cases h
  | bool c => rw [hg] at h; cases h
  | int i => rw [hg] at h; cases h
  | float r => rw [hg] at h; cases h
  | arr xs => rw [hg] at h; cases h
  | obj kvs => rw [hg] at h; cases h
  | pyobj s => rw [hg] at h; cases h

theorem pidChain_ne_empty {row : Row} {k1 k2 : String} {p : String}
    (h : pidChain row k1 k2 = .ok (some p)) : p ≠ "" := by
  unfold pidChain at h
  cases h1 : extract_pid (rowGet row k1) with
  | error er =>
    rw [h1] at h
    cases h
  | ok o1 =>
    rw [h1] at h
    cases o1 with
    | some q =>
      have : q = p := by
        have := Except.ok.inj h
        simpa using this
      exact this ▸ extract_pid_ne_empty h1
    | none =>
      have h2 : extract_pid (rowGet row k2) = .ok (some p) := h
      exact extract_pid_ne_empty h2

/-- C8: when a property id resolves (from prop, then p) and both
property-label columns give the empty string, every edge newly emitted
for the row stores the property id string itself as its label, which is
never empty. -/
theorem c8_prop_label_fallback (b : KGBuilder) (row : Row) (p : String)
    (hpid : pidChain row "prop" "p" = .ok (some p))
    (hpl : get_value (rowGet row "propLabel") = .str "")
    (hpl2 : get_value (rowGet row "pl_") = .str "") :
    ∀ e ∈ (b.process_row row).1.edges, e ∉ b.edges →
      e.property_label = .str p ∧ p ≠ "" := by
  intro e he hnew
  obtain ⟨subj, obj, pid, _, hp, _, hedge⟩ := process_row_new_edge he hnew
  have hpideq : pid = some p := by
    rw [hpid] at hp
    exact (Except.ok.inj hp).symm
  have hlab : prop_label_of row (some p) = .str p := by
    unfold prop_label_of
    rw [hpl, hpl2]
    show pyOr (.str "") (pyOr (.str "") (optStr (some p))) = .str p
    unfold pyOr
    simp [pyTruthy, optStr]
  subst hpideq
  constructor
  · rw [hedge]
    show prop_label_of row (some p) = .str p
    exact hlab
  · exact pidChain_ne_empty hpid

/-- C8 witness: a concrete row with a resolvable property id and no
property label stores the pid itself as the edge label. -/
theorem c8_prop_label_witness :
    pidChain [("item", JVal.str "http://x/entity/Q1"),
        ("prop", JVal.str "http://x/prop/direct/P31"),
        ("value", JVal.str "http://x/entity/Q2")] "prop" "p" = .ok (some "P31") ∧
    (∀ e ∈ (KGBuilder.init.process_row
        [("item", JVal.str "http://x/entity/Q1"),
         ("prop", JVal.str "http://x/prop/direct/P31"),
         ("value", JVal.str "http://x/entity/Q2")]).1.edges,
      e ∉ KGBuilder.init.edges → e.property_label = .str "P31" ∧ "P31" ≠ "") :=
  ⟨by decide,
    c8_prop_label_fallback KGBuilder.init
      [("item", JVal.str "http://x/entity/Q1"),
       ("prop", JVal.str "http://x/prop/direct/P31"),
       ("value", JVal.str "http://x/entity/Q2")] "P31" (by decide) (by decide) (by decide)⟩

/-- C2: the skip policy of process_row on a well-formed row (every cell
null, primitive, or a wrapper whose "value" entry holds text, as the
input contract specifies).  If no subject id resolves from item, item1,
subject, the builder is returned entirely unchanged; if a subject id
resolves but no object id resolves from value, item2, o, the result is
exactly ensure_node of the subject with its label - so the subject node
exists, its non-empty label is recorded, and no edge or dedup key is
added. -/
theorem c2_process_row_skip_policy (b : KGBuilder) (row : Row) (hwf : WFRow row) :
    (qidChain row "item" "item1" "subject" = .ok none → b.process_row row = (b, true)) ∧
    (∀ subj, qidChain row "item" "item1" "subject" = .ok (some subj) →
      qidChain row "value" "item2" "o" = .ok none →
      b.process_row row = ((b.ensure_node subj (subj_label_of row)).1, true) ∧
      (b.process_row row).1.edges = b.edges ∧
      (b.process_row row).1.edge_seen = b.edge_seen ∧
      (b.process_row row).1.prop_counts = b.prop_counts ∧
      subj ∈ nodeKeys (b.process_row row).1 ∧
      (pyTruthy (subj_label_of row) = true →
        labelPairIn (b.process_row row).1 subj (subj_label_of row))) := by
  constructor
  · intro h
    exact process_row_subj_none h
  · intro subj hs ho
    have hstr : (subj_label_of row).isStr = true := wf_labelChain_isStr hwf ..
    have hhash : pyHashable (subj_label_of row) = true := pyHashable_of_isStr hstr
    have hflag : flagOf (subj_label_of row) = true := flagOf_true_of_hashable hhash
    obtain ⟨pid, hp⟩ := wf_pidChain_ok hwf "prop" "p"
    have hres := process_row_obj_none (b := b) hs hflag hp ho
    refine ⟨hres, ?_, ?_, ?_, ?_, ?_⟩
    · rw [hres]
      exact ensure_node_edges ..
    · rw [hres]
      exact ensure_node_seen ..
    · rw [hres]
      exact ensure_node_counts ..
    · rw [hres]
      exact (mem_nodeKeys_ensure ..).mpr (Or.inr rfl)
    · intro ht
      rw [hres]
      exact (labelPairIn_ensure ..).mpr (Or.inr ⟨ht, hhash, rfl, rfl⟩)

/-- C2 witness: a concrete well-formed row with a subject but no object
creates exactly the subject node with its label and no edge. -/
theorem c2_skip_policy_witness :
    WFRow rowSubjOnly ∧
    qidChain rowSubjOnly "item" "item1" "subject" = .ok (some "Q1") ∧
    qidChain rowSubjOnly "value" "item2" "o" = .ok none ∧
    KGBuilder.init.process_row rowSubjOnly =
      ((KGBuilder.init.ensure_node "Q1" (subj_label_of rowSubjOnly)).1, true) :=
  ⟨by decide, by decide, by decide,
    ((c2_process_row_skip_policy KGBuilder.init rowSubjOnly (by decide)).2 "Q1"
      (by decide) (by decide)).1⟩

/-- C1: dedup idempotence.  A repeated add_edge whose key is already in
edge_seen leaves the whole builder (edges, edge_seen, prop_counts)
unchanged; a repeated ensure_node with an existing id and an
already-recorded label leaves the builder unchanged; and re-processing
any row from the state its first processing produced reproduces that
state exactly, so ingesting the same row any number of times yields one
node per distinct entity id and one edge per distinct dedup quadruple. -/
theorem c1_dedup_idempotence :
    (∀ (b : KGBuilder) (src dst : String) (pid : Option String) (prop_label : JVal),
      ((src, dst, (pid.getD ""), pyOr prop_label (.str "")) : EdgeKey) ∈ b.edge_seen →
      (b.add_edge src dst pid prop_label).1 = b) ∧
    (∀ (b : KGBuilder) (q : String) (l : JVal), q ∈ nodeKeys b →
      (∀ p ∈ b.nodes, p.1 = q → l ∈ p.2.labels) →
      (b.ensure_node q l).1 = b) ∧
    (∀ (b : KGBuilder) (row : Row),
      (b.process_row row).1.process_row row = b.process_row row) := by
  refine ⟨?_, ?_, ?_⟩
  · intro b src dst pid prop_label h
    exact add_edge_fix (Or.inl h)
  · intro b q l hq hl
    exact ensure_node_fix ⟨hq, fun n hn _ _ => hl (q, n) hn rfl⟩
  · intro b row
    exact process_row_idem b row

/-- C1 witness: on the round-trip row the first processing creates the
state and the second reproduces it; the repeated ensure_node and
add_edge calls are no-ops on the resulting concrete state. -/
theorem c1_dedup_idempotence_witness :
    ((KGBuilder.init.process_row rowRT).1.process_row rowRT =
      KGBuilder.init.process_row rowRT) ∧
    ((("Q1", "Q2", "P31", JVal.str "instance of") : EdgeKey) ∈
      (KGBuilder.init.process_row rowRT).1.edge_seen) ∧
    (((KGBuilder.init.process_row rowRT).1.add_edge "Q1" "Q2" (some "P31")
        (JVal.str "instance of")).1 = (KGBuilder.init.process_row rowRT).1) ∧
    ("Q1" ∈ nodeKeys (KGBuilder.init.process_row rowRT).1) ∧
    (((KGBuilder.init.process_row rowRT).1.ensure_node "Q1" (JVal.str "Earth")).1 =
      (KGBuilder.init.process_row rowRT).1) :=
  ⟨c1_dedup_idempotence.2.2 KGBuilder.init rowRT,
    by decide,
    c1_dedup_idempotence.1 _ "Q1" "Q2" (some "P31") (JVal.str "instance of") (by decide),
    by decide,
    c1_dedup_idempotence.2.1 _ "Q1" (JVal.str "Earth") (by decide) (by decide)⟩

/-- C3: for a node whose observed labels are (distinct) strings, the
normalization step of build succeeds and yields the same id, a sorted
duplicate-free list of exactly the observed labels, and a canonical
label that is the lexicographically smallest observed label (the empty
string when no label was observed). -/
theorem c3_finalize_canonical_label (n : Node)
    (hstr : ∀ l ∈ n.labels, l.isStr = true) (hnd : n.labels.Nodup) :
    ∃ m, normalize_node n = .ok m ∧ m.id = n.id ∧
      (∀ l, l ∈ m.labels ↔ l ∈ n.labels) ∧ m.labels.Nodup ∧
      List.Pairwise labelLe m.labels ∧
      (n.labels = [] → m.label = .str "") ∧
      (n.labels ≠ [] → m.label ∈ n.labels ∧ ∀ l ∈ n.labels, labelLe m.label l) := by
  obtain ⟨m, h1, h2, hperm, hsort, hemp, hne⟩ := normalize_node_spec hstr
  exact ⟨m, h1, h2, fun l => hperm.mem_iff, hperm.nodup_iff.mpr hnd, hsort, hemp, hne⟩

/-- C3 witness: the example node with labels Beta, Alpha, alpha gets
canonical label Alpha and sorted label list [Alpha, Beta, alpha]. -/
theorem c3_finalize_witness :
    (∀ l ∈ nodeBAa.labels, l.isStr = true) ∧ nodeBAa.labels.Nodup ∧
    normalize_node nodeBAa =
      .ok ⟨"Q1", .str "Alpha", [.str "Alpha", .str "Beta", .str "alpha"]⟩ ∧
    (∃ m, normalize_node nodeBAa = .ok m ∧ m.id = nodeBAa.id ∧
      (∀ l, l ∈ m.labels ↔ l ∈ nodeBAa.labels) ∧ m.labels.Nodup ∧
      List.Pairwise labelLe m.labels ∧
      (nodeBAa.labels = [] → m.label = .str "") ∧
      (nodeBAa.labels ≠ [] → m.label ∈ nodeBAa.labels ∧
        ∀ l ∈ nodeBAa.labels, labelLe m.label l)) :=
  ⟨by decide, by decide, by decide,
    c3_finalize_canonical_label nodeBAa (by decide) (by decide)⟩

/-- C4: in every builder state reachable from the initial state by
processing any sequence of raw rows, the source and target ids of
every stored edge are keys of the node map. -/
theorem c4_edge_endpoints_closed :
    ∀ rows : List JVal, EdgesClosed (ingest_rows KGBuilder.init rows) := fun rows =>
  edgesClosed_ingest_rows rows (fun e he => absurd he (List.not_mem_nil e))

/-- C4 witness: the invariant evaluated on a concrete ingested sequence. -/
theorem c4_edge_endpoints_witness :
    EdgesClosed (ingest_rows KGBuilder.init [.obj rowRT, .int 3, .obj rowSubjOnly]) :=
  c4_edge_endpoints_closed [.obj rowRT, .int 3, .obj rowSubjOnly]

/-- Well-formedness of the node dict maintained by the builder: keys are
distinct (dict semantics), each label set is duplicate-free (set
semantics), and the id field of each node record equals its key. -/
def NodesWF (b : KGBuilder) : Prop :=
  (nodeKeys b).Nodup ∧ (∀ p ∈ b.nodes, p.2.labels.Nodup) ∧ ∀ p ∈ b.nodes, p.2.id = p.1

theorem nodup_append_singleton {α : Type} {l : List α} {a : α}
    (hn : l.Nodup) (ha : a ∉ l) : (l ++ [a]).Nodup := by
  rw [List.nodup_append]
  refine ⟨hn, List.nodup_singleton a, ?_⟩
  intro x hx
  simp only [List.mem_singleton]
  intro hcon
  rw [hcon] at hx
  exact ha hx

theorem nodesWF_ensure {b : KGBuilder} (q : String) (l : JVal) (h : NodesWF b) :
    NodesWF (b.ensure_node q l).1 := by
  obtain ⟨hk, hl, hi⟩ := h
  set nodes1 := if q ∈ b.nodes.map Prod.fst then b.nodes
      else b.nodes ++ [(q, (⟨q, []⟩ : Node))] with hn1
  have hk1 : (nodes1.map Prod.fst).Nodup := by
    rw [hn1]
    by_cases hm : q ∈ b.nodes.map Prod.fst
    · rw [if_pos hm]
      exact hk
    · rw [if_neg hm]
      rw [List.map_append]
      exact nodup_append_singleton hk (by simpa using hm)
  have hl1 : ∀ p ∈ nodes1, p.2.labels.Nodup := by
    rw [hn1]
    intro p hp
    by_cases hm : q ∈ b.nodes.map Prod.fst
    · rw [if_pos hm] at hp
      exact hl p hp
    · rw [if_neg hm] at hp
      rcases List.mem_append.mp hp with hp | hp
      · exact hl p hp
      · rw [List.mem_singleton.mp hp]
        exact List.nodup_nil
  have hi1 : ∀ p ∈ nodes1, p.2.id = p.1 := by
    rw [hn1]
    intro p hp
    by_cases hm : q ∈ b.nodes.map Prod.fst
    · rw [if_pos hm] at hp
      exact hi p hp
    · rw [if_neg hm] at hp
      rcases List.mem_append.mp hp with hp | hp
      · exact hi p hp
      · rw [List.mem_singleton.mp hp]
  rw [NodesWF, nodeKeys, nodes_ensure_node]
  by_cases hth : (pyTruthy l && pyHashable l) = true
  · rw [if_pos hth]
    refine ⟨?_, ?_, ?_⟩
    · rw [map_fst_addLabelTo]
      exact hk1
    · intro p hp
      rcases List.mem_map.mp hp with ⟨p2, hp2, hfp⟩
      rw [← hfp]
      by_cases hq : p2.1 = q
      · rw [if_pos hq]
        by_cases hmem : l ∈ p2.2.labels
        · simpa [hmem] using hl1 p2 hp2
        · simp only [hmem, if_neg, not_false_iff]
          exact nodup_append_singleton (hl1 p2 hp2) hmem
      · rw [if_neg hq]
        exact hl1 p2 hp2
    · intro p hp
      rcases List.mem_map.mp hp with ⟨p2, hp2, hfp⟩
      rw [← hfp]
      by_cases hq : p2.1 = q
      · rw [if_pos hq]
        by_cases hmem : l ∈ p2.2.labels <;> simpa [hmem] using hi1 p2 hp2
      · rw [if_neg hq]
        exact hi1 p2 hp2
  · rw [if_neg hth]
    exact ⟨hk1, hl1, hi1⟩

theorem nodesWF_add {b : KGBuilder} (src dst : String) (pid : Option String)
    (pl : JVal) (h : NodesWF b) : NodesWF (b.add_edge src dst pid pl).1 := by
  rw [NodesWF, nodeKeys, add_edge_nodes]
  exact h

theorem nodesWF_process {b : KGBuilder} (r : JVal) (h : NodesWF b) :
    NodesWF (process_row_any b r).1 := by
  match r with
  | .null => exact h
  | .bool _ => exact h
  | .int _ => exact h
  | .float _ => exact h
  | .str _ => exact h
  | .arr _ => exact h
  | .pyobj _ => exact h
  | .obj row =>
    show NodesWF (b.process_row row).1
    cases hs : qidChain row "item" "item1" "subject" with
    | error e =>
      rw [process_row_subj_err hs]
      exact h
    | ok subjOpt =>
      cases subjOpt with
      | none =>
        rw [process_row_subj_none hs]
        exact h
      | some subj =>
        by_cases hf : flagOf (subj_label_of row) = false
        · rw [process_row_badlabel hs hf]
          exact nodesWF_ensure _ _ h
        · have hf2 : flagOf (subj_label_of row) = true := by
            simp only [Bool.not_eq_false] at hf
            exact hf
          cases hp : pidChain row "prop" "p" with
          | error e =>
            rw [process_row_pid_err hs hf2 hp]
            exact nodesWF_ensure _ _ h
          | ok pid =>
            cases ho : qidChain row "value" "item2" "o" with
            | error e =>
              rw [process_row_obj_err hs hf2 hp ho]
              exact nodesWF_ensure _ _ h
            | ok objOpt =>
              cases objOpt with
              | none =>
                rw [process_row_obj_none hs hf2 hp ho]
                exact nodesWF_ensure _ _ h
              | some obj =>
                by_cases hg : flagOf (obj_label_of row) = false
                · rw [process_row_badobjlabel hs hf2 hp ho hg]
                  exact nodesWF_ensure _ _ (nodesWF_ensure _ _ h)
                · have hg2 : flagOf (obj_label_of row) = true := by
                    simp only [Bool.not_eq_false] at hg
                    exact hg
                  rw [process_row_full hs hf2 hp ho hg2]
                  exact nodesWF_add _ _ _ _ (nodesWF_ensure _ _ (nodesWF_ensure _ _ h))

theorem nodesWF_init : NodesWF KGBuilder.init :=
  ⟨List.nodup_nil, fun p hp => absurd hp (List.not_mem_nil p),
    fun p hp => absurd hp (List.not_mem_nil p)⟩

theorem nodesWF_ingest_rows (rows : List JVal) {b : KGBuilder} (h : NodesWF b) :
    NodesWF (ingest_rows b rows) := by
  induction rows generalizing b with
  | nil => exact h
  | cons r rest ih =>
    rw [ingest_rows_cons]
    exact ih (nodesWF_process r h)

theorem entry_unique {nodes : List (String × Node)} {q : String} {n1 n2 : Node}
    (hk : (nodes.map Prod.fst).Nodup) (h1 : (q, n1) ∈ nodes) (h2 : (q, n2) ∈ nodes) :
    n1 = n2 := by
  induction nodes with
  | nil => exact absurd h1 (List.not_mem_nil _)
  | cons p rest ih =>
    rw [List.map_cons] at hk
    have hk2 := List.nodup_cons.mp hk
    rcases List.mem_cons.mp h1 with h1 | h1 <;> rcases List.mem_cons.mp h2 with h2 | h2
    · exact congrArg Prod.snd (h1.trans h2.symm)
    · exfalso
      apply hk2.1
      have hq : p.1 = q := (congrArg Prod.fst h1).symm
      rw [hq]
      exact List.mem_map.mpr ⟨(q, n2), h2, rfl⟩
    · exfalso
      apply hk2.1
      have hq : p.1 = q := (congrArg Prod.fst h2).symm
      rw [hq]
      exact List.mem_map.mpr ⟨(q, n1), h1, rfl⟩
    · exact ih hk2.2 h1 h2

theorem pySorted_eq_of_perm_str {l1 l2 : List JVal} (hp : l1.Perm l2)
    (hs : ∀ l ∈ l1, l.isStr = true) : pySorted l1 = pySorted l2 := by
  have hs2 : ∀ l ∈ l2, l.isStr = true := fun l hl => hs l (hp.mem_iff.mpr hl)
  have hlen := hp.length_eq
  unfold pySorted
  by_cases h1 : l1.length ≤ 1
  · have h2 : l2.length ≤ 1 := by rw [← hlen]; exact h1
    rw [if_pos h1, if_pos h2]
    congr 1
    cases l1 with
    | nil => exact (hp.symm.eq_nil).symm
    | cons a t =>
      cases t with
      | nil => exact List.singleton_perm.mp hp
      | cons c u => simp at h1
  · have h2 : ¬l2.length ≤ 1 := by rw [← hlen]; exact h1
    rw [if_neg h1, if_neg h2]
    have ha1 : l1.all JVal.isStr = true := List.all_eq_true.mpr hs
    have ha2 : l2.all JVal.isStr = true := List.all_eq_true.mpr hs2
    rw [if_pos ha1, if_pos ha2]
    congr 2
    exact sortStrs_eq_of_perm (hp.map jvalAsStr)

theorem normalize_node_eq {n1 n2 : Node} (hid : n1.id = n2.id)
    (hp : n1.labels.Perm n2.labels) (hs : ∀ l ∈ n1.labels, l.isStr = true) :
    normalize_node n1 = normalize_node n2 := by
  have hps0 := pySorted_eq_of_perm_str hp hs
  have hemp : n1.labels.isEmpty = n2.labels.isEmpty := by
    have hlen := hp.length_eq
    cases hl1 : n1.labels with
    | nil =>
      cases hl2 : n2.labels with
      | nil => rfl
      | cons c u => rw [hl1, hl2] at hlen; simp at hlen
    | cons a t =>
      cases hl2 : n2.labels with
      | nil => rw [hl1, hl2] at hlen; simp at hlen
      | cons c u => rfl
  cases hps : pySorted n2.labels with
  | error e =>
    have e1 : normalize_node n1 = .error e := by
      unfold normalize_node
      rw [hps0, hps]
      rfl
    have e2 : normalize_node n2 = .error e := by
      unfold normalize_node
      rw [hps]
      rfl
    rw [e1, e2]
  | ok s =>
    have e1 : normalize_node n1 =
        .ok ⟨n1.id, if n1.labels.isEmpty then .str "" else s.headD (.str ""), s⟩ := by
      unfold normalize_node
      rw [hps0, hps]
      rfl
    have e2 : normalize_node n2 =
        .ok ⟨n2.id, if n2.labels.isEmpty then .str "" else s.headD (.str ""), s⟩ := by
      unfold normalize_node
      rw [hps]
      rfl
    rw [e1, e2, hid, hemp]

theorem labels_iff_labelPair {b : KGBuilder} {q : String} {n : Node}
    (hk : (nodeKeys b).Nodup) (hn : (q, n) ∈ b.nodes) (l : JVal) :
    l ∈ n.labels ↔ labelPairIn b q l := by
  constructor
  · intro h
    exact ⟨n, hn, h⟩
  · rintro ⟨n2, hn2, h⟩
    rw [entry_unique hk hn hn2]
    exact h

theorem bex_perm {α : Type} {l1 l2 : List α} (h : l1.Perm l2) (P : α → Prop) :
    (∃ r ∈ l1, P r) ↔ (∃ r ∈ l2, P r) := by
  constructor <;> rintro ⟨r, hr, hp⟩
  · exact ⟨r, h.mem_iff.mp hr, hp⟩
  · exact ⟨r, h.mem_iff.mpr hr, hp⟩

/-- C5: permuting the input files (documents) and the rows within them
leaves the deduplicated structure unchanged: the set of node ids, the
per-node sets of recorded labels and the set of edge dedup keys are
identical, and hence the normalization of any node (canonical label and
sorted label list, for stringly-labelled nodes) is identical across the
two orders.  The hypothesis covers every such permutation: reordering
documents and rows permutes the concatenated row sequence. -/
theorem c5_order_independence (docs1 docs2 : List JVal)
    (h : (docs1.flatMap rows_of_doc).Perm (docs2.flatMap rows_of_doc)) :
    (∀ x, x ∈ nodeKeys (ingest_files KGBuilder.init docs1) ↔
      x ∈ nodeKeys (ingest_files KGBuilder.init docs2)) ∧
    (∀ x m, labelPairIn (ingest_files KGBuilder.init docs1) x m ↔
      labelPairIn (ingest_files KGBuilder.init docs2) x m) ∧
    (∀ k, k ∈ (ingest_files KGBuilder.init docs1).edge_seen ↔
      k ∈ (ingest_files KGBuilder.init docs2).edge_seen) ∧
    (∀ q n1 n2, (q, n1) ∈ (ingest_files KGBuilder.init docs1).nodes →
      (q, n2) ∈ (ingest_files KGBuilder.init docs2).nodes →
      (∀ l ∈ n1.labels, l.isStr = true) →
      normalize_node n1 = normalize_node n2) := by
  rw [ingest_files_eq_ingest_rows, ingest_files_eq_ingest_rows]
  obtain ⟨e1a, e1b, e1c⟩ := ingest_rows_effect KGBuilder.init (docs1.flatMap rows_of_doc)
  obtain ⟨e2a, e2b, e2c⟩ := ingest_rows_effect KGBuilder.init (docs2.flatMap rows_of_doc)
  have iff2 : ∀ x m, labelPairIn (ingest_rows KGBuilder.init (docs1.flatMap rows_of_doc)) x m ↔
      labelPairIn (ingest_rows KGBuilder.init (docs2.flatMap rows_of_doc)) x m := by
    intro x m
    rw [e1b, e2b, bex_perm h (fun r => (x, m) ∈ (row_effect r).pairs)]
  refine ⟨?_, iff2, ?_, ?_⟩
  · intro x
    rw [e1a, e2a, bex_perm h (fun r => x ∈ (row_effect r).ids)]
  · intro k
    rw [e1c, e2c, bex_perm h (fun r => k ∈ (row_effect r).keys)]
  · intro q n1 n2 hn1 hn2 hs1
    have wf1 := nodesWF_ingest_rows (docs1.flatMap rows_of_doc) nodesWF_init
    have wf2 := nodesWF_ingest_rows (docs2.flatMap rows_of_doc) nodesWF_init
    have hid : n1.id = n2.id := by
      rw [wf1.2.2 (q, n1) hn1, wf2.2.2 (q, n2) hn2]
    have hmem : ∀ l, l ∈ n1.labels ↔ l ∈ n2.labels := fun l =>
      ((labels_iff_labelPair wf1.1 hn1 l).trans (iff2 q l)).trans
        (labels_iff_labelPair wf2.1 hn2 l).symm
    have hperm : n1.labels.Perm n2.labels :=
      (List.perm_ext_iff_of_nodup (wf1.2.1 (q, n1) hn1) (wf2.2.1 (q, n2) hn2)).mpr hmem
    exact normalize_node_eq hid hperm hs1

/-- C5 witness: one file holding two rows against two one-row files in
the reverse order give the same node-key memberships. -/
theorem c5_order_independence_witness :
    (([JVal.arr [.obj rowRT, .obj rowSubjOnly]].flatMap rows_of_doc).Perm
      ([JVal.arr [.obj rowSubjOnly], JVal.arr [.obj rowRT]].flatMap rows_of_doc)) ∧
    (("Q2" ∈ nodeKeys (ingest_files KGBuilder.init
        [JVal.arr [.obj rowRT, .obj rowSubjOnly]])) ↔
      ("Q2" ∈ nodeKeys (ingest_files KGBuilder.init
        [JVal.arr [.obj rowSubjOnly], JVal.arr [.obj rowRT]]))) :=
  ⟨by decide,
    (c5_order_independence [JVal.arr [.obj rowRT, .obj rowSubjOnly]]
      [JVal.arr [.obj rowSubjOnly], JVal.arr [.obj rowRT]] (by decide)).1 "Q2"⟩

/-- A builder call: one ensure_node or one add_edge invocation. -/
inductive BOp where
  | ens (q : String) (l : JVal)
  | add (src dst : String) (pid : Option String) (pl : JVal)

def applyOp (b : KGBuilder) (op : BOp) : KGBuilder :=
  match op with
  | .ens q l => (b.ensure_node q l).1
  | .add src dst pid pl => (b.add_edge src dst pid pl).1

/-- The dedup key of a stored edge record. -/
def edgeKeyOf (e : Edge) : EdgeKey :=
  (e.source, e.target, (e.property_id.getD ""), pyOr e.property_label (.str ""))

/-- The Counter key of a stored edge record. -/
def edgePairOf (e : Edge) : String × JVal :=
  ((e.property_id.getD ""), pyOr e.property_label (.str ""))

/-- Reading a Counter entry: 0 when absent. -/
def countOf : List ((String × JVal) × Nat) → (String × JVal) → Nat
  | [], _ => 0
  | p :: rest, k => if p.1 = k then p.2 else countOf rest k

theorem countOf_append_new {counts : List ((String × JVal) × Nat)} {k : String × JVal}
    (h : k ∉ counts.map Prod.fst) (n : Nat) (k2 : String × JVal) :
    countOf (counts ++ [(k, n)]) k2 = if k2 = k then n else countOf counts k2 := by
  induction counts with
  | nil =>
    show (if k = k2 then n else 0) = if k2 = k then n else 0
    by_cases hk : k2 = k
    · rw [if_pos hk.symm, if_pos hk]
    · rw [if_neg (fun hc => hk hc.symm), if_neg hk]
  | cons p rest ih =>
    have h2 : k ∉ rest.map Prod.fst := fun hc => h (List.mem_cons_of_mem _ hc)
    show (if p.1 = k2 then p.2 else countOf (rest ++ [(k, n)]) k2) = _
    by_cases hp : p.1 = k2
    · rw [if_pos hp]
      have hne : ¬k2 = k := by
        intro hc
        apply h
        rw [List.map_cons, hp, hc]
        exact List.mem_cons_self ..
      rw [if_neg hne]
      show _ = if p.1 = k2 then p.2 else countOf rest k2
      rw [if_pos hp]
    · rw [if_neg hp, ih h2]
      by_cases hk : k2 = k
      · rw [if_pos hk, if_pos hk]
      · rw [if_neg hk, if_neg hk]
        show _ = if p.1 = k2 then p.2 else countOf rest k2
        rw [if_neg hp]

theorem countOf_not_mem {counts : List ((String × JVal) × Nat)} {k : String × JVal}
    (h : k ∉ counts.map Prod.fst) : countOf counts k = 0 := by
  induction counts with
  | nil => rfl
  | cons p rest ih =>
    show (if p.1 = k then p.2 else countOf rest k) = 0
    have hne : p.1 ≠ k := by
      intro hc
      apply h
      rw [List.map_cons, hc]
      exact List.mem_cons_self ..
    rw [if_neg hne]
    exact ih fun hc => h (List.mem_cons_of_mem _ hc)

theorem countOf_map_bump_self (k : String × JVal) :
    ∀ counts : List ((String × JVal) × Nat), k ∈ counts.map Prod.fst →
    countOf (counts.map fun p => if p.1 = k then (p.1, p.2 + 1) else p) k =
      countOf counts k + 1 := by
  intro counts
  induction counts with
  | nil => intro h; simp at h
  | cons p rest ih =>
    intro h
    by_cases hp : p.1 = k
    · show (if (if p.1 = k then (p.1, p.2 + 1) else p).1 = k then
        (if p.1 = k then (p.1, p.2 + 1) else p).2 else _) = _
      rw [if_pos hp]
      show (if p.1 = k then p.2 + 1 else _) = _
      rw [if_pos hp]
      show _ = (if p.1 = k then p.2 else countOf rest k) + 1
      rw [if_pos hp]
    · show (if (if p.1 = k then (p.1, p.2 + 1) else p).1 = k then
        (if p.1 = k then (p.1, p.2 + 1) else p).2 else
        countOf (rest.map fun p => if p.1 = k then (p.1, p.2 + 1) else p) k) = _
      rw [if_neg hp]
      show (if p.1 = k then p.2 else
        countOf (rest.map fun p => if p.1 = k then (p.1, p.2 + 1) else p) k) = _
      rw [if_neg hp]
      have hrest : k ∈ rest.map Prod.fst := by
        rcases List.mem_cons.mp (by rw [List.map_cons] at h; exact h) with hc | hc
        · exact absurd hc.symm hp
        · exact hc
      rw [ih hrest]
      show _ = (if p.1 = k then p.2 else countOf rest k) + 1
      rw [if_neg hp]

theorem countOf_map_bump_other (k k2 : String × JVal) (hne : k2 ≠ k) :
    ∀ counts : List ((String × JVal) × Nat),
    countOf (counts.map fun p => if p.1 = k then (p.1, p.2 + 1) else p) k2 =
      countOf counts k2 := by
  intro counts
  induction counts with
  | nil => rfl
  | cons p rest ih =>
    by_cases hp : p.1 = k
    · show (if (if p.1 = k then (p.1, p.2 + 1) else p).1 = k2 then
        (if p.1 = k then (p.1, p.2 + 1) else p).2 else _) = _
      rw [if_pos hp]
      show (if p.1 = k2 then p.2 + 1 else _) = _
      have hp2 : p.1 ≠ k2 := by
        rw [hp]
        exact fun hc => hne hc.symm
      rw [if_neg hp2, ih]
      show _ = if p.1 = k2 then p.2 else countOf rest k2
      rw [if_neg hp2]
    · show (if (if p.1 = k then (p.1, p.2 + 1) else p).1 = k2 then
        (if p.1 = k then (p.1, p.2 + 1) else p).2 else _) = _
      rw [if_neg hp]
      show (if p.1 = k2 then p.2 else _) = _
      by_cases hp2 : p.1 = k2
      · rw [if_pos hp2]
        show _ = if p.1 = k2 then p.2 else countOf rest k2
        rw [if_pos hp2]
      · rw [if_neg hp2, ih]
        show _ = if p.1 = k2 then p.2 else countOf rest k2
        rw [if_neg hp2]

theorem countOf_bump (counts : List ((String × JVal) × Nat)) (k k2 : String × JVal) :
    countOf (bumpCount counts k) k2 =
      if k2 = k then countOf counts k2 + 1 else countOf counts k2 := by
  unfold bumpCount
  by_cases hm : k ∈ counts.map Prod.fst
  · rw [if_pos hm]
    by_cases hk : k2 = k
    · rw [if_pos hk, hk]
      exact countOf_map_bump_self k counts hm
    · rw [if_neg hk]
      exact countOf_map_bump_other k k2 hk counts
  · rw [if_neg hm, countOf_append_new hm 1 k2]
    by_cases hk : k2 = k
    · rw [if_pos hk, if_pos hk, hk, countOf_not_mem hm]
    · rw [if_neg hk, if_neg hk]

/-- The consistency of the three dedup structures (claim C10): edge_seen
is exactly the list of stored dedup keys in order (hence the edge count
equals its size), those keys are pairwise distinct, and each Counter
entry counts the stored edges carrying its (pid, label) pair. -/
def DedupConsistent (b : KGBuilder) : Prop :=
  b.edge_seen = b.edges.map edgeKeyOf ∧
  (b.edges.map edgeKeyOf).Nodup ∧
  b.edges.length = b.edge_seen.length ∧
  ∀ pr, countOf b.prop_counts pr =
    (b.edges.filter fun e => decide (edgePairOf e = pr)).length

theorem add_edge_new_eq {b : KGBuilder} {src dst : String} {pid : Option String}
    {pl : JVal} (hh : pyHashable (pyOr pl (.str "")) = true)
    (hk : ((src, dst, (pid.getD ""), pyOr pl (.str "")) : EdgeKey) ∉ b.edge_seen) :
    (b.add_edge src dst pid pl).1 =
      { b with
        edge_seen := b.edge_seen ++ [(src, dst, (pid.getD ""), pyOr pl (.str ""))],
        edges := b.edges ++ [⟨src, dst, pid, pl⟩],
        prop_counts := bumpCount b.prop_counts ((pid.getD ""), pyOr pl (.str "")) } := by
  unfold KGBuilder.add_edge
  rw [if_pos hh, if_neg hk]

theorem dedupConsistent_applyOp {b : KGBuilder} (op : BOp) (h : DedupConsistent b) :
    DedupConsistent (applyOp b op) := by
  cases op with
  | ens q l =>
    show DedupConsistent (b.ensure_node q l).1
    unfold DedupConsistent
    rw [ensure_node_seen, ensure_node_edges, ensure_node_counts]
    exact h
  | add src dst pid pl =>
    show DedupConsistent (b.add_edge src dst pid pl).1
    obtain ⟨h1, h2, h3, h4⟩ := h
    by_cases hh : pyHashable (pyOr pl (.str "")) = true
    · by_cases hk : ((src, dst, (pid.getD ""), pyOr pl (.str "")) : EdgeKey) ∈ b.edge_seen
      · rw [add_edge_fix (Or.inl hk)]
        exact ⟨h1, h2, h3, h4⟩
      · rw [add_edge_new_eq hh hk]
        unfold DedupConsistent
        have hkey : edgeKeyOf ⟨src, dst, pid, pl⟩ =
            ((src, dst, (pid.getD ""), pyOr pl (.str "")) : EdgeKey) := rfl
        refine ⟨?_, ?_, ?_, ?_⟩
        · show b.edge_seen ++ _ = (b.edges ++ [(⟨src, dst, pid, pl⟩ : Edge)]).map edgeKeyOf
          rw [List.map_append, ← h1]
          rfl
        · show ((b.edges ++ [(⟨src, dst, pid, pl⟩ : Edge)]).map edgeKeyOf).Nodup
          rw [List.map_append]
          refine nodup_append_singleton h2 ?_
          rw [← h1, hkey]
          exact hk
        · show (b.edges ++ _).length = (b.edge_seen ++ _).length
          rw [List.length_append, List.length_append, h3]
          rfl
        · intro pr
          show countOf (bumpCount b.prop_counts ((pid.getD ""), pyOr pl (.str ""))) pr =
            ((b.edges ++ [(⟨src, dst, pid, pl⟩ : Edge)]).filter
              fun e => decide (edgePairOf e = pr)).length
          rw [countOf_bump, List.filter_append, List.length_append, h4]
          have hpair : edgePairOf ⟨src, dst, pid, pl⟩ =
              ((pid.getD ""), pyOr pl (.str "")) := rfl
          by_cases hpr : pr = ((pid.getD ""), pyOr pl (.str ""))
          · rw [if_pos hpr]
            have : ([(⟨src, dst, pid, pl⟩ : Edge)].filter
                fun e => decide (edgePairOf e = pr)).length = 1 := by
              rw [List.filter_singleton]
              rw [show (decide (edgePairOf (⟨src, dst, pid, pl⟩ : Edge) = pr)) = true
                from by rw [hpair, hpr]; simp]
              rfl
            rw [this]
          · rw [if_neg hpr]
            have : ([(⟨src, dst, pid, pl⟩ : Edge)].filter
                fun e => decide (edgePairOf e = pr)).length = 0 := by
              rw [List.filter_singleton]
              rw [show (decide (edgePairOf (⟨src, dst, pid, pl⟩ : Edge) = pr)) = false
                from by rw [hpair]; simp; exact fun hc => hpr hc.symm]
              rfl
            rw [this]
            rfl
    · have hh2 : pyHashable (pyOr pl (.str "")) = false := by
        simp only [Bool.not_eq_true] at hh
        exact hh
      rw [add_edge_fix (Or.inr hh2)]
      unfold DedupConsistent
      exact ⟨h1, h2, h3, h4⟩

theorem dedupConsistent_foldl (ops : List BOp) :
    ∀ {b : KGBuilder}, DedupConsistent b → DedupConsistent (ops.foldl applyOp b) := by
  induction ops with
  | nil => exact fun h => h
  | cons op rest ih =>
    intro b h
    exact ih (dedupConsistent_applyOp op h)

/-- C10: after any sequence of ensure_node and add_edge calls from the
initial state, the stored edges have pairwise distinct dedup keys,
edge_seen is exactly the list of those keys (so the edge count equals
its size), and every Counter entry equals the number of stored edges
carrying its (pid-or-empty, label-or-empty) pair. -/
theorem c10_dedup_structures_consistent :
    ∀ ops : List BOp, DedupConsistent (ops.foldl applyOp KGBuilder.init) := by
  have hinit : DedupConsistent KGBuilder.init := by
    unfold DedupConsistent
    exact ⟨rfl, List.nodup_nil, rfl, fun pr => rfl⟩
  intro ops
  exact dedupConsistent_foldl ops hinit

/-- C10 witness: the consistency evaluated after a concrete call
sequence with a duplicated add_edge. -/
theorem c10_dedup_witness :
    DedupConsistent ([BOp.ens "Q1" (.str "Earth"), BOp.ens "Q2" (.str "Planet"),
      BOp.add "Q1" "Q2" (some "P31") (.str "instance of"),
      BOp.add "Q1" "Q2" (some "P31") (.str "instance of"),
      BOp.add "Q1" "Q2" none .null].foldl applyOp KGBuilder.init) :=
  c10_dedup_structures_consistent [BOp.ens "Q1" (.str "Earth"), BOp.ens "Q2" (.str "Planet"),
    BOp.add "Q1" "Q2" (some "P31") (.str "instance of"),
    BOp.add "Q1" "Q2" (some "P31") (.str "instance of"),
    BOp.add "Q1" "Q2" none .null]
